import Mathlib

/-!
Shallow embedding of the parameter-smoothing engine of this repository
(`src/params/smoothing.rs` and the `Smoothable` trait of `src/sample.rs`).

Modelling conventions:
* The sample type `S` (`f32` / `f64`) is modelled by the real numbers `ℝ`;
  `powf` becomes `Real.rpow`, `powi` becomes `zpow`, and primitive casts
  between floating-point widths are exact.
* Machine integers are modelled by `ℤ` / `ℕ` with the wrapping and saturating
  behaviour of Rust's `as` casts and of `AtomicI32` arithmetic made explicit
  where it can matter.
* The atomics of `Smoother` are read and written by a single thread in program
  order, so each field is an ordinary field of a state record, and every
  operation is a function from states to (result, state).
-/

noncomputable section

/-- Two's-complement reduction of an arbitrary integer into the range of a
32-bit signed integer, as Rust's integer `as i32` casts and wrapping
`AtomicI32` arithmetic (`fetch_sub`) behave. -/
def toI32 (x : ℤ) : ℤ := (x + 2 ^ 31) % 2 ^ 32 - 2 ^ 31

/-- Truncation toward zero of a real number: the rounding used by Rust's
float-to-integer `as` casts. -/
def truncToZero (x : ℝ) : ℤ := if 0 ≤ x then ⌊x⌋ else ⌈x⌉

/-- Rust's `f32::round` / `f64::round`: nearest integer, ties rounded away from
zero.  The result is again a floating-point value. -/
def rustRound (x : ℝ) : ℝ := if 0 ≤ x then (⌊x + 1 / 2⌋ : ℝ) else (⌈x - 1 / 2⌉ : ℝ)

/-- Rust's saturating float-to-`u32` `as` cast: truncate toward zero, clamp to
`[0, 2^32 - 1]`. -/
def realToU32 (x : ℝ) : ℕ := (min (max (truncToZero x) 0) (2 ^ 32 - 1)).toNat

/-- Rust's saturating float-to-`i32` `as` cast: truncate toward zero, clamp to
`[-2^31, 2^31 - 1]`.  This is `Smoothable::from_s` for `i32` (`s.to_p()` in
`src/sample.rs`). -/
def realToI32 (x : ℝ) : ℤ := min (max (truncToZero x) (-2 ^ 31)) (2 ^ 31 - 1)

/-- Rust's `i32`-to-`usize` `as` cast on a 64-bit platform: sign-extend and
reinterpret, so a negative count becomes a huge unsigned one. -/
def i32ToUsize (x : ℤ) : ℕ := (x % 2 ^ 64).toNat

/-- The `SmoothingStyle<S>` enum of `src/params/smoothing.rs`.  Durations are
milliseconds; the `Arc<S::Atomic>` oversampling amount of `OversamplingAware`
is modelled by the value it holds, as read by a sequential execution. -/
inductive SmoothingStyle : Type where
  | OversamplingAware (oversampling_times : ℝ) (style : SmoothingStyle)
  | None
  | Linear (time : ℝ)
  | Logarithmic (time : ℝ)
  | Exponential (time : ℝ)

/-- Model of `SmoothingStyle::num_steps`: `(sample_rate * time * 0.001).round().to_p()`,
the `to_p` being the saturating float-to-`u32` cast.  `None` gives 1, and
`OversamplingAware` scales the sample rate before delegating. -/
def SmoothingStyle.num_steps : SmoothingStyle → ℝ → ℕ
  | .OversamplingAware oversampling_times style, sample_rate =>
      style.num_steps (sample_rate * oversampling_times)
  | .None, _ => 1
  | .Linear time, sample_rate
  | .Logarithmic time, sample_rate
  | .Exponential time, sample_rate =>
      realToU32 (rustRound (sample_rate * time * 0.001))

/-- Model of `SmoothingStyle::step_size`.  The `f64::powf` calls of the `Logarithmic`
and `Exponential` arms are modelled by `Real.rpow`. -/
def SmoothingStyle.step_size : SmoothingStyle → ℝ → ℝ → ℕ → ℝ
  | .OversamplingAware _ style, start, target, num_steps =>
      style.step_size start target num_steps
  | .None, _, _, _ => 0
  | .Linear _, start, target, num_steps => (target - start) / (num_steps : ℝ)
  | .Logarithmic _, start, target, num_steps =>
      (target / start) ^ ((num_steps : ℝ))⁻¹
  | .Exponential _, _, _, num_steps => (0.0001 : ℝ) ^ ((num_steps : ℝ))⁻¹

/-- Model of `SmoothingStyle::next`: one step from `current` toward `target` using a
precomputed `step_size`. -/
def SmoothingStyle.next : SmoothingStyle → ℝ → ℝ → ℝ → ℝ
  | .OversamplingAware _ style, current, target, step_size =>
      style.next current target step_size
  | .None, _, target, _ => target
  | .Linear _, current, _, step_size => current + step_size
  | .Logarithmic _, current, _, step_size => current * step_size
  | .Exponential _, current, target, step_size =>
      current * step_size + target * (1 - step_size)

/-- Model of `SmoothingStyle::next_step`: the closed form for `steps` steps at once.
The source computes `step_size.powi(steps as i32)`; the `u32`-to-`i32` cast
wraps, which `toI32` keeps, and `powi` on reals is `zpow`. -/
def SmoothingStyle.next_step : SmoothingStyle → ℝ → ℝ → ℝ → ℕ → ℝ
  | .OversamplingAware _ style, current, target, step_size, steps =>
      style.next_step current target step_size steps
  | .None, _, target, _, _ => target
  | .Linear _, current, _, step_size, steps => current + step_size * (steps : ℝ)
  | .Logarithmic _, current, _, step_size, steps =>
      current * step_size ^ toI32 (steps : ℤ)
  | .Exponential _, current, target, step_size, steps =>
      current * step_size ^ toI32 (steps : ℤ) +
        target * (1 - step_size ^ toI32 (steps : ℤ))

/-- The `Smoothable` trait of `src/sample.rs` for a logical parameter type `T`:
the default value (`Default`), and the conversions to and from the engine's
floating-point sample type. -/
structure Smoothable (T : Type) where
  default : T
  from_s : ℝ → T
  to_s : T → ℝ

/-- Model of `impl Smoothable for f32` (and `f64`): both conversions are identity casts
between floats, exact in this model. -/
def smoothableF32 : Smoothable ℝ :=
  { default := 0, from_s := fun s => s, to_s := fun v => v }

/-- Model of `impl_smoothable!(i32, AtomicI32)`: `from_s` is `s.to_p()`, Rust's
saturating truncating float-to-`i32` cast; `to_s` is the `i32`-to-float cast,
exact in this model. -/
def smoothableI32 : Smoothable ℤ :=
  { default := 0, from_s := realToI32, to_s := fun v => (v : ℝ) }

/-- Sequential state of a `Smoother<T, S>`: the values held in its cells
(`style`, `steps_left : AtomicI32`, `step_size`, `current`, `target`). -/
@[ext]
structure Smoother (T : Type) where
  style : SmoothingStyle
  steps_left : ℤ
  step_size : ℝ
  current : ℝ
  target : T

/-- Model of `Smoother::new` (via `Default`): given style, `steps_left = 0`, zero
`step_size` and `current`, default `target`. -/
def Smoother.new {T : Type} (sm : Smoothable T) (style : SmoothingStyle) : Smoother T :=
  { style := style, steps_left := 0, step_size := 0, current := 0, target := sm.default }

/-- Model of `Smoother::reset`: store `value` into `target`, its float representation
into `current`, and 0 into `steps_left`. -/
def Smoother.reset {T : Type} (sm : Smoothable T) (value : T) (s : Smoother T) : Smoother T :=
  { s with target := value, current := sm.to_s value, steps_left := 0 }

/-- Model of `Smoother::set_target`: publish `target`, store
`num_steps(sample_rate) as i32` into `steps_left` (the cast wraps, kept by
`toI32`), and recompute `step_size` from the current value, or store 0 when no
steps are left. -/
def Smoother.set_target {T : Type} (sm : Smoothable T) (sample_rate : ℝ) (target : T)
    (s : Smoother T) : Smoother T :=
  let steps_left := toI32 (s.style.num_steps sample_rate : ℤ)
  { s with
    target := target
    steps_left := steps_left
    step_size :=
      if 0 < steps_left then
        s.style.step_size s.current (sm.to_s target) (s.style.num_steps sample_rate)
      else 0 }

/-- Model of `Smoother::next`: when `steps_left > 0`, fetch-sub 1 from `steps_left`; on
the last step (old value 1) store 0 and snap `current` to the target's float
value, otherwise advance `current` by `SmoothingStyle::next`; return the new
current converted to `T`.  When `steps_left <= 0`, return `target` unchanged. -/
def Smoother.next {T : Type} (sm : Smoothable T) (s : Smoother T) : T × Smoother T :=
  let target := s.target
  if 0 < s.steps_left then
    let target_s := sm.to_s target
    let old_steps_left := s.steps_left
    if old_steps_left = 1 then
      (sm.from_s target_s, { s with current := target_s, steps_left := 0 })
    else
      let new := s.style.next s.current target_s s.step_size
      (sm.from_s new, { s with current := new, steps_left := old_steps_left - 1 })
  else
    (target, s)

/-- Model of `Smoother::next_step`: skip `steps` positions at once.  The source does
`fetch_sub(steps as i32)` (both the cast and the subtraction wrap) and then, if
the old count was at most `steps as i32`, stores 0 and snaps to the target,
otherwise uses the closed-form `SmoothingStyle::next_step`. -/
def Smoother.next_step {T : Type} (sm : Smoothable T) (steps : ℕ) (s : Smoother T) :
    T × Smoother T :=
  let target := s.target
  if 0 < s.steps_left then
    let target_s := sm.to_s target
    let old_steps_left := s.steps_left
    if old_steps_left ≤ toI32 (steps : ℤ) then
      (sm.from_s target_s, { s with current := target_s, steps_left := 0 })
    else
      let new := s.style.next_step s.current target_s s.step_size steps
      (sm.from_s new,
        { s with current := new, steps_left := toI32 (old_steps_left - toI32 (steps : ℤ)) })
  else
    (target, s)

/-- Model of `Smoother::previous_value`: the current value converted to `T`, without
advancing. -/
def Smoother.previous_value {T : Type} (sm : Smoothable T) (s : Smoother T) : T :=
  sm.from_s s.current

/-- The `fill_with` loop shared by the block methods: produce `n` successive
`SmoothingStyle::next` values (each converted to `T`) starting from `current`,
returning the written values and the final `current`. -/
def smoothFill {T : Type} (sm : Smoothable T) (style : SmoothingStyle)
    (target_s step_size : ℝ) : ℕ → ℝ → List T × ℝ
  | 0, current => ([], current)
  | n + 1, current =>
      let c := style.next current target_s step_size
      let rest := smoothFill sm style target_s step_size n c
      (sm.from_s c :: rest.1, rest.2)

/-- Model of `Smoother::next_block_exact` on a buffer of length `len`.  Every element of
the buffer is overwritten, so the buffer's prior contents are irrelevant and
the model returns the written list together with the updated state.
`num_smoothed_values = min(len, steps_left as usize)` values are produced by
the iterative formula — with the last one snapped to `target` when the run
exhausts the countdown — and the rest of the buffer is filled with `target`. -/
def Smoother.next_block_exact {T : Type} (sm : Smoothable T) (s : Smoother T) (len : ℕ) :
    List T × Smoother T :=
  let target := s.target
  let steps_left := i32ToUsize s.steps_left
  let num_smoothed_values := min len steps_left
  if 0 < num_smoothed_values then
    let target_s := sm.to_s target
    if num_smoothed_values = steps_left then
      let filled := smoothFill sm s.style target_s s.step_size (num_smoothed_values - 1) s.current
      (filled.1 ++ target :: List.replicate (len - num_smoothed_values) target,
        { s with current := target_s,
                 steps_left := toI32 (s.steps_left - toI32 (num_smoothed_values : ℤ)) })
    else
      let filled := smoothFill sm s.style target_s s.step_size num_smoothed_values s.current
      (filled.1 ++ List.replicate (len - num_smoothed_values) target,
        { s with current := filled.2,
                 steps_left := toI32 (s.steps_left - toI32 (num_smoothed_values : ℤ)) })
  else
    (List.replicate len target, s)

/-- Model of `Smoother::next_block`: `self.next_block_exact(&mut block_values[..block_len])`.
Slicing panics when `block_len > block_values.len()` (modelled by `none`);
otherwise the sub-slice of the first `block_len` elements is overwritten by
`next_block_exact` and the tail is untouched. -/
def Smoother.next_block {T : Type} (sm : Smoothable T) (s : Smoother T)
    (block_values : List T) (block_len : ℕ) : Option (List T × Smoother T) :=
  if block_len ≤ block_values.length then
    let r := Smoother.next_block_exact sm s block_len
    some (r.1 ++ block_values.drop block_len, r.2)
  else
    Option.none

/-- The mapped fill loop of `next_block_exact_mapped`: like `smoothFill` but
each written element is `f idx c` for the running block index `idx`.  The
output type `U` is the mapper's return type (`T` in the source, where the
mapper's results land in the given buffer). -/
def mappedFill {U : Type} (style : SmoothingStyle) (target_s step_size : ℝ)
    (f : ℕ → ℝ → U) : ℕ → ℕ → ℝ → List U × ℝ
  | _, 0, current => ([], current)
  | idx, n + 1, current =>
      let c := style.next current target_s step_size
      let rest := mappedFill style target_s step_size f (idx + 1) n c
      (f idx c :: rest.1, rest.2)

/-- Model of `Smoother::next_block_exact_mapped` on a buffer of length `len`: exactly
the structure of `next_block_exact`, but every written element is
`f (index, intermediate_float)`; past the smoothed run (and on the snapped last
smoothed sample) the float handed to `f` is the target's float value. -/
def Smoother.next_block_exact_mapped {T U : Type} (sm : Smoothable T) (s : Smoother T)
    (len : ℕ) (f : ℕ → ℝ → U) : List U × Smoother T :=
  let target_s := sm.to_s s.target
  let steps_left := i32ToUsize s.steps_left
  let num_smoothed_values := min len steps_left
  if 0 < num_smoothed_values then
    if num_smoothed_values = steps_left then
      let filled := mappedFill s.style target_s s.step_size f 0 (num_smoothed_values - 1) s.current
      (filled.1 ++ f (num_smoothed_values - 1) target_s ::
          ((List.range' num_smoothed_values (len - num_smoothed_values)).map
            (fun idx => f idx target_s)),
        { s with current := target_s,
                 steps_left := toI32 (s.steps_left - toI32 (num_smoothed_values : ℤ)) })
    else
      let filled := mappedFill s.style target_s s.step_size f 0 num_smoothed_values s.current
      (filled.1 ++ ((List.range' num_smoothed_values (len - num_smoothed_values)).map
          (fun idx => f idx target_s)),
        { s with current := filled.2,
                 steps_left := toI32 (s.steps_left - toI32 (num_smoothed_values : ℤ)) })
  else
    (((List.range len).map (fun idx => f idx target_s)), s)

/-- Model of `Smoother::next_block_mapped`: slice to `block_len` (panicking, modelled by
`none`, when the buffer is shorter) and delegate to `next_block_exact_mapped`;
the tail of the buffer is untouched. -/
def Smoother.next_block_mapped {T : Type} (sm : Smoothable T) (s : Smoother T)
    (block_values : List T) (block_len : ℕ) (f : ℕ → ℝ → T) :
    Option (List T × Smoother T) :=
  if block_len ≤ block_values.length then
    let r := Smoother.next_block_exact_mapped sm s block_len f
    some (r.1 ++ block_values.drop block_len, r.2)
  else
    Option.none

/-- Iterating the state transition of `Smoother::next` `k` times. -/
def Smoother.nextIter {T : Type} (sm : Smoothable T) : ℕ → Smoother T → Smoother T
  | 0, s => s
  | k + 1, s => Smoother.nextIter sm k (Smoother.next sm s).2

/-- The list of values returned by `k` successive `Smoother::next` calls. -/
def Smoother.nextValues {T : Type} (sm : Smoothable T) : ℕ → Smoother T → List T
  | 0, _ => []
  | k + 1, s => (Smoother.next sm s).1 :: Smoother.nextValues sm k (Smoother.next sm s).2

/-- The caller contract of the `Logarithmic` style (docstring of
`SmoothingStyle::Logarithmic` and the `nih_debug_assert_ne!(start, 0)` of
`step_size`): wherever a `Logarithmic` style occurs, the start value is
nonzero and has the same sign as the target. -/
def logarithmicContract : SmoothingStyle → ℝ → ℝ → Prop
  | .OversamplingAware _ style, start, target => logarithmicContract style start target
  | .Logarithmic _, start, target => start ≠ 0 ∧ 0 < target / start
  | _, _, _ => True

/-- The states whose `steps_left` cell holds a non-negative (hence valid
`i32`) count: the externally observable contract of the smoother. -/
def stepsLeftValid {T : Type} (s : Smoother T) : Prop :=
  0 ≤ s.steps_left ∧ s.steps_left < 2 ^ 31

/-- An integer already in the `i32` range is unchanged by the wrapping cast. -/
theorem toI32_of_range {x : ℤ} (h1 : -2 ^ 31 ≤ x) (h2 : x < 2 ^ 31) : toI32 x = x := by
  unfold toI32
  rw [Int.emod_eq_of_lt (by omega) (by omega)]
  omega

/-- A natural number below `2^31` is unchanged by the `u32`-to-`i32` cast. -/
theorem toI32_natCast {n : ℕ} (h : n < 2 ^ 31) : toI32 (n : ℤ) = n :=
  toI32_of_range (by omega) (by exact_mod_cast h)

/-- A non-negative `i32` is unchanged by the `as usize` cast. -/
theorem i32ToUsize_of_nonneg {x : ℤ} (h1 : 0 ≤ x) (h2 : x < 2 ^ 31) :
    i32ToUsize x = x.toNat := by
  unfold i32ToUsize
  rw [Int.emod_eq_of_lt h1 (by omega)]

/-- Closed form for iterating the `Linear` per-sample formula. -/
theorem linear_iterate (time target step_size : ℝ) (k : ℕ) (a : ℝ) :
    (fun c => (SmoothingStyle.Linear time).next c target step_size)^[k] a =
      a + (k : ℝ) * step_size := by
  induction k generalizing a with
  | zero => simp
  | succ k ih =>
      rw [Function.iterate_succ_apply, ih]
      simp only [SmoothingStyle.next]
      push_cast
      ring

/-- Closed form for iterating the `Logarithmic` per-sample formula. -/
theorem logarithmic_iterate (time target step_size : ℝ) (k : ℕ) (a : ℝ) :
    (fun c => (SmoothingStyle.Logarithmic time).next c target step_size)^[k] a =
      a * step_size ^ k := by
  induction k generalizing a with
  | zero => simp
  | succ k ih =>
      rw [Function.iterate_succ_apply, ih]
      simp only [SmoothingStyle.next]
      ring

/-- Closed form for iterating the `Exponential` per-sample formula. -/
theorem exponential_iterate (time target step_size : ℝ) (k : ℕ) (a : ℝ) :
    (fun c => (SmoothingStyle.Exponential time).next c target step_size)^[k] a =
      a * step_size ^ k + target * (1 - step_size ^ k) := by
  induction k generalizing a with
  | zero => simp
  | succ k ih =>
      rw [Function.iterate_succ_apply, ih]
      simp only [SmoothingStyle.next]
      ring

/-- C2 (amended): for the `Linear`, `Logarithmic` and `Exponential` styles, any
start and target values, and any step count `1 ≤ n < 2^31` (so that the
`u32`-to-`i32` cast inside `powi(steps as i32)` does not wrap), the closed-form
`SmoothingStyle::next_step` equals `n` iterated applications of
`SmoothingStyle::next`, exactly, with `step_size` computed once by
`SmoothingStyle::step_size`. -/
theorem next_step_eq_iterated_next (style : SmoothingStyle) (start target : ℝ) (n : ℕ)
    (hstyle : ∃ t, style = .Linear t ∨ style = .Logarithmic t ∨ style = .Exponential t)
    (h1 : 1 ≤ n) (h2 : n < 2 ^ 31) :
    style.next_step start target (style.step_size start target n) n =
      (fun c => style.next c target (style.step_size start target n))^[n] start := by
  obtain ⟨t, h | h | h⟩ := hstyle <;> subst h
  · rw [linear_iterate]
    simp only [SmoothingStyle.next_step]
    ring
  · rw [logarithmic_iterate]
    simp only [SmoothingStyle.next_step, toI32_natCast h2, zpow_natCast]
  · rw [exponential_iterate]
    simp only [SmoothingStyle.next_step, toI32_natCast h2, zpow_natCast]

/-- Witness for C2's amended theorem at the test's seed values: `Linear`,
`start = 0.4`, `target = 0.8`, 15 steps. -/
theorem next_step_eq_iterated_next_witness :
    SmoothingStyle.next_step (.Linear 100) (2 / 5) (4 / 5)
        (SmoothingStyle.step_size (.Linear 100) (2 / 5) (4 / 5) 15) 15 =
      (fun c => SmoothingStyle.next (.Linear 100) c (4 / 5)
          (SmoothingStyle.step_size (.Linear 100) (2 / 5) (4 / 5) 15))^[15] (2 / 5) :=
  next_step_eq_iterated_next (.Linear 100) (2 / 5) (4 / 5) 15
    ⟨100, Or.inl rfl⟩ (by norm_num) (by norm_num)

/-- Counterexample to C2 as stated: at step count `n = 2^31` the
`u32`-to-`i32` cast in `step_size.powi(steps as i32)` wraps to `-2^31`, so for
the `Logarithmic` style from 1 to 2 the closed form yields `1/2` while
2^31 iterated `next` calls yield `2` — an exact mismatch far beyond the 1e-5
relative tolerance. -/
theorem next_step_iterated_next_mismatch_at_pow31 :
    SmoothingStyle.next_step (.Logarithmic 100) 1 2
        (SmoothingStyle.step_size (.Logarithmic 100) 1 2 (2 ^ 31)) (2 ^ 31) = 1 / 2 ∧
      (fun c => SmoothingStyle.next (.Logarithmic 100) c 2
          (SmoothingStyle.step_size (.Logarithmic 100) 1 2 (2 ^ 31)))^[2 ^ 31] 1 = 2 ∧
      ¬ |(1 / 2 : ℝ) - 2| ≤ 1e-5 * |(2 : ℝ)| := by
  have h31 : ((2 ^ 31 : ℕ) : ℝ) ≠ 0 := by norm_num
  have hpow : (((2 : ℝ) / 1) ^ (((2 ^ 31 : ℕ) : ℝ))⁻¹) ^ (2 ^ 31 : ℕ) = 2 := by
    rw [← Real.rpow_natCast (((2 : ℝ) / 1) ^ (((2 ^ 31 : ℕ) : ℝ))⁻¹) (2 ^ 31),
      ← Real.rpow_mul (by norm_num), inv_mul_cancel₀ h31, Real.rpow_one]
    norm_num
  have hcast : toI32 ((2 ^ 31 : ℕ) : ℤ) = -((2 ^ 31 : ℕ) : ℤ) := by
    unfold toI32
    omega
  refine ⟨?_, ?_, ?_⟩
  · simp only [SmoothingStyle.next_step, SmoothingStyle.step_size, hcast]
    rw [zpow_neg, zpow_natCast, hpow]
    norm_num
  · rw [logarithmic_iterate]
    simp only [SmoothingStyle.step_size]
    rw [hpow]
    norm_num
  · rw [abs_sub_comm, abs_of_nonneg (show (0 : ℝ) ≤ 2 - 1 / 2 by norm_num),
      abs_of_nonneg (show (0 : ℝ) ≤ 2 by norm_num)]
    norm_num

/-- A rounded value of at least half a step yields at least one step after the
`u32` cast. -/
theorem realToU32_rustRound_pos {x : ℝ} (h : 1 / 2 ≤ x) : 1 ≤ realToU32 (rustRound x) := by
  have hx : (0 : ℝ) ≤ x := le_trans (by norm_num) h
  have h1 : (1 : ℤ) ≤ ⌊x + 1 / 2⌋ := by
    rw [Int.le_floor]
    push_cast
    linarith
  unfold rustRound
  rw [if_pos hx]
  unfold realToU32 truncToZero
  rw [if_pos (by exact_mod_cast le_trans (by norm_num) h1), Int.floor_intCast]
  omega

/-- A non-negative value below half a step rounds to zero steps. -/
theorem realToU32_rustRound_lt_half {x : ℝ} (h0 : 0 ≤ x) (h : x < 1 / 2) :
    realToU32 (rustRound x) = 0 := by
  have hfl : ⌊x + 1 / 2⌋ = 0 := by
    rw [Int.floor_eq_zero_iff]
    constructor
    · linarith
    · linarith
  unfold rustRound
  rw [if_pos h0, hfl]
  unfold realToU32 truncToZero
  norm_num

/-- C1 (amended): `num_steps` of the `None` style is always exactly 1; for the
duration-carrying styles it is `round(sample_rate * duration_ms / 1000)` cast
to `u32`, which is at least 1 exactly when the product is at least half a
sample, and is 0 — not 1 — for a zero or sub-half-sample duration. -/
theorem num_steps_amended :
    (∀ sample_rate : ℝ, SmoothingStyle.None.num_steps sample_rate = 1) ∧
    (∀ time sample_rate : ℝ, 1 / 2 ≤ sample_rate * time * 0.001 →
      1 ≤ (SmoothingStyle.Linear time).num_steps sample_rate ∧
      1 ≤ (SmoothingStyle.Logarithmic time).num_steps sample_rate ∧
      1 ≤ (SmoothingStyle.Exponential time).num_steps sample_rate) ∧
    (∀ time sample_rate : ℝ, 0 ≤ sample_rate * time * 0.001 →
      sample_rate * time * 0.001 < 1 / 2 →
      (SmoothingStyle.Linear time).num_steps sample_rate = 0 ∧
      (SmoothingStyle.Logarithmic time).num_steps sample_rate = 0 ∧
      (SmoothingStyle.Exponential time).num_steps sample_rate = 0) := by
  refine ⟨fun sample_rate => rfl, ?_, ?_⟩
  · intro time sample_rate h
    exact ⟨realToU32_rustRound_pos h, realToU32_rustRound_pos h, realToU32_rustRound_pos h⟩
  · intro time sample_rate h0 h
    exact ⟨realToU32_rustRound_lt_half h0 h, realToU32_rustRound_lt_half h0 h,
      realToU32_rustRound_lt_half h0 h⟩

/-- Counterexample to C1 as stated: a `Linear` style with duration 0 at the
positive sample rate 100 yields 0 steps, not at least 1. -/
theorem num_steps_zero_at_zero_duration :
    (SmoothingStyle.Linear 0).num_steps 100 = 0 ∧ (0 : ℝ) < 100 := by
  constructor
  · have h : (100 : ℝ) * 0 * 0.001 = 0 := by norm_num
    show realToU32 (rustRound (100 * 0 * 0.001)) = 0
    rw [h]
    exact realToU32_rustRound_lt_half le_rfl (by norm_num)
  · norm_num

/-- When no steps are left, `next()` returns the target and leaves the state
untouched. -/
theorem next_of_done {T : Type} (sm : Smoothable T) (s : Smoother T) (h : s.steps_left ≤ 0) :
    Smoother.next sm s = (s.target, s) := by
  unfold Smoother.next
  rw [if_neg (by omega)]

/-- When no steps are left, iterating `next()` leaves the state untouched. -/
theorem nextIter_done {T : Type} (sm : Smoothable T) (s : Smoother T) (h : s.steps_left ≤ 0)
    (k : ℕ) : Smoother.nextIter sm k s = s := by
  induction k with
  | zero => rfl
  | succ k ih =>
      show Smoother.nextIter sm k (Smoother.next sm s).2 = s
      rw [next_of_done sm s h]
      exact ih

/-- When no steps are left, every value `next()` returns is the target. -/
theorem nextValues_done {T : Type} (sm : Smoothable T) (s : Smoother T) (h : s.steps_left ≤ 0)
    (k : ℕ) : Smoother.nextValues sm k s = List.replicate k s.target := by
  induction k with
  | zero => rfl
  | succ k ih =>
      show (Smoother.next sm s).1 :: Smoother.nextValues sm k (Smoother.next sm s).2 = _
      rw [next_of_done sm s h, List.replicate_succ]
      exact congrArg _ ih

/-- C6: whenever `steps_left() == 0`, every call to `next()` returns the
target value and modifies none of the smoother's state — `current`,
`steps_left`, `step_size`, `style` and `target` are all unchanged — for
arbitrarily many repeated calls. -/
theorem next_identity_when_done {T : Type} (sm : Smoothable T) (s : Smoother T)
    (h : s.steps_left = 0) :
    Smoother.next sm s = (s.target, s) ∧
    (∀ k, Smoother.nextIter sm k s = s) ∧
    (∀ k, Smoother.nextValues sm k s = List.replicate k s.target) :=
  ⟨next_of_done sm s (le_of_eq h), fun k => nextIter_done sm s (le_of_eq h) k,
    fun k => nextValues_done sm s (le_of_eq h) k⟩

/-- Witness for C6 at a concrete exhausted smoother. -/
theorem next_identity_when_done_witness :
    Smoother.next smoothableF32 (⟨SmoothingStyle.None, 0, 0, 7, 5⟩ : Smoother ℝ) =
        ((5 : ℝ), (⟨SmoothingStyle.None, 0, 0, 7, 5⟩ : Smoother ℝ)) ∧
    (∀ k, Smoother.nextIter smoothableF32 k (⟨SmoothingStyle.None, 0, 0, 7, 5⟩ : Smoother ℝ) =
        (⟨SmoothingStyle.None, 0, 0, 7, 5⟩ : Smoother ℝ)) ∧
    (∀ k, Smoother.nextValues smoothableF32 k (⟨SmoothingStyle.None, 0, 0, 7, 5⟩ : Smoother ℝ) =
        List.replicate k (5 : ℝ)) :=
  next_identity_when_done smoothableF32 ⟨SmoothingStyle.None, 0, 0, 7, 5⟩ rfl

/-- One smoothing step of `next()` that is not the final one: advance
`current` by the curve formula and decrement the countdown. -/
theorem next_of_smoothing {T : Type} (sm : Smoothable T) (s : Smoother T)
    (h : 1 < s.steps_left) :
    Smoother.next sm s =
      (sm.from_s (s.style.next s.current (sm.to_s s.target) s.step_size),
        { s with current := s.style.next s.current (sm.to_s s.target) s.step_size,
                 steps_left := s.steps_left - 1 }) := by
  unfold Smoother.next
  rw [if_pos (by omega), if_neg (by omega)]

/-- The final smoothing step of `next()`: snap `current` to the target's float
value and zero the countdown. -/
theorem next_of_last {T : Type} (sm : Smoothable T) (s : Smoother T)
    (h : s.steps_left = 1) :
    Smoother.next sm s =
      (sm.from_s (sm.to_s s.target),
        { s with current := sm.to_s s.target, steps_left := 0 }) := by
  unfold Smoother.next
  rw [if_pos (by omega), if_pos h]

/-- Length of the iterative fill. -/
theorem smoothFill_length {T : Type} (sm : Smoothable T) (style : SmoothingStyle)
    (t ss : ℝ) (k : ℕ) (c : ℝ) : (smoothFill sm style t ss k c).1.length = k := by
  induction k generalizing c with
  | zero => rfl
  | succ k ih =>
      show (sm.from_s _ :: (smoothFill sm style t ss k _).1).length = k + 1
      rw [List.length_cons, ih]

/-- The final `current` of the iterative fill is the `k`-th iterate of the
curve formula. -/
theorem smoothFill_snd_eq_iterate {T : Type} (sm : Smoothable T) (style : SmoothingStyle)
    (t ss : ℝ) (k : ℕ) (c : ℝ) :
    (smoothFill sm style t ss k c).2 = (fun x => style.next x t ss)^[k] c := by
  induction k generalizing c with
  | zero => rfl
  | succ k ih =>
      rw [Function.iterate_succ_apply]
      exact ih (style.next c t ss)

/-- Trajectory of `k < steps_left` calls to `next()`: the state advances by
the iterative fill and the countdown drops by exactly `k`; the values returned
are exactly the fill's values. -/
theorem nextIter_smoothing {T : Type} (sm : Smoothable T) (k : ℕ) (s : Smoother T)
    (h : (k : ℤ) < s.steps_left) :
    Smoother.nextIter sm k s =
      { s with
        current := (smoothFill sm s.style (sm.to_s s.target) s.step_size k s.current).2,
        steps_left := s.steps_left - k } ∧
    Smoother.nextValues sm k s =
      (smoothFill sm s.style (sm.to_s s.target) s.step_size k s.current).1 := by
  induction k generalizing s with
  | zero =>
      constructor
      · show s = _
        simp [smoothFill]
      · rfl
  | succ k ih =>
      have hk1 : 1 < s.steps_left := by
        have : ((k : ℤ)) + 1 ≤ s.steps_left := by push_cast at h ⊢; omega
        omega
      have hnext := next_of_smoothing sm s hk1
      have hlt : (k : ℤ) <
          ({ s with current := s.style.next s.current (sm.to_s s.target) s.step_size,
                    steps_left := s.steps_left - 1 } : Smoother T).steps_left := by
        show (k : ℤ) < s.steps_left - 1
        push_cast at h
        omega
      obtain ⟨ihIter, ihVals⟩ := ih _ hlt
      constructor
      · show Smoother.nextIter sm k (Smoother.next sm s).2 = _
        rw [hnext] at *
        rw [ihIter]
        ext <;> simp [smoothFill] <;> push_cast <;> ring
      · show (Smoother.next sm s).1 ::
            Smoother.nextValues sm k (Smoother.next sm s).2 = _
        rw [hnext] at *
        rw [ihVals]
        simp [smoothFill]

/-- Splitting an iteration of `next()` state transitions. -/
theorem nextIter_add {T : Type} (sm : Smoothable T) (a b : ℕ) (s : Smoother T) :
    Smoother.nextIter sm (a + b) s = Smoother.nextIter sm b (Smoother.nextIter sm a s) := by
  induction a generalizing s with
  | zero => rw [Nat.zero_add]; rfl
  | succ a ih =>
      rw [show a + 1 + b = a + b + 1 by omega]
      show Smoother.nextIter sm (a + b) (Smoother.next sm s).2 = _
      rw [ih]
      rfl

/-- Splitting the value lists of successive `next()` calls. -/
theorem nextValues_add {T : Type} (sm : Smoothable T) (a b : ℕ) (s : Smoother T) :
    Smoother.nextValues sm (a + b) s =
      Smoother.nextValues sm a s ++ Smoother.nextValues sm b (Smoother.nextIter sm a s) := by
  induction a generalizing s with
  | zero => rw [Nat.zero_add]; rfl
  | succ a ih =>
      rw [show a + 1 + b = a + b + 1 by omega]
      show (Smoother.next sm s).1 :: Smoother.nextValues sm (a + b) (Smoother.next sm s).2 = _
      rw [ih]
      rfl

/-- The element straight after a prefix of an appended list. -/
theorem get_append_cons {α : Type} (l1 : List α) (x : α) (l2 : List α) :
    (l1 ++ x :: l2).get? l1.length = some x := by
  induction l1 with
  | nil => rfl
  | cons a l1 ih => exact ih

/-- Evaluation of `next_block_exact` when the block covers the whole
countdown: the first `steps_left - 1` values come from the iterative fill, the
`steps_left`-th is snapped to `target`, the rest of the block is `target`, and
the state ends at the target with a zero countdown. -/
theorem next_block_exact_eval_snap {T : Type} (sm : Smoothable T) (s : Smoother T) (len : ℕ)
    (h0 : 0 < s.steps_left) (h31 : s.steps_left < 2 ^ 31) (hlen : s.steps_left ≤ (len : ℤ)) :
    Smoother.next_block_exact sm s len =
      ((smoothFill sm s.style (sm.to_s s.target) s.step_size (s.steps_left.toNat - 1)
            s.current).1 ++
          s.target :: List.replicate (len - s.steps_left.toNat) s.target,
        { s with current := sm.to_s s.target, steps_left := 0 }) := by
  have husize : i32ToUsize s.steps_left = s.steps_left.toNat :=
    i32ToUsize_of_nonneg (le_of_lt h0) h31
  have hnum : min len s.steps_left.toNat = s.steps_left.toNat := by
    apply min_eq_right
    omega
  simp only [Smoother.next_block_exact, husize, hnum]
  rw [if_pos (show 0 < s.steps_left.toNat by omega), if_true,
    Int.toNat_of_nonneg (le_of_lt h0), toI32_of_range (by omega) h31, sub_self,
    @toI32_of_range 0 (by norm_num) (by norm_num)]

/-- Evaluation of `next_block_exact` when the block is shorter than the
countdown: every value comes from the iterative fill and the countdown drops
by the block length. -/
theorem next_block_exact_eval_mid {T : Type} (sm : Smoothable T) (s : Smoother T) (len : ℕ)
    (hpos : 0 < len) (h31 : s.steps_left < 2 ^ 31) (hlen : (len : ℤ) < s.steps_left) :
    Smoother.next_block_exact sm s len =
      ((smoothFill sm s.style (sm.to_s s.target) s.step_size len s.current).1,
        { s with
          current := (smoothFill sm s.style (sm.to_s s.target) s.step_size len s.current).2,
          steps_left := s.steps_left - len }) := by
  have h0 : 0 < s.steps_left := by omega
  have husize : i32ToUsize s.steps_left = s.steps_left.toNat :=
    i32ToUsize_of_nonneg (le_of_lt h0) h31
  have hnum : min len s.steps_left.toNat = len := by
    apply min_eq_left
    omega
  have hne : ¬ len = s.steps_left.toNat := by omega
  simp only [Smoother.next_block_exact, husize, hnum]
  rw [if_pos hpos, if_neg hne,
    @toI32_of_range ((len : ℕ) : ℤ) (by omega) (by omega),
    @toI32_of_range (s.steps_left - (len : ℤ)) (by omega) (by omega),
    Nat.sub_self, List.replicate_zero, List.append_nil]

/-- Evaluation of `next_block_exact` on an exhausted smoother: the block is
filled with the target and the state is untouched. -/
theorem next_block_exact_eval_done {T : Type} (sm : Smoothable T) (s : Smoother T) (len : ℕ)
    (h : s.steps_left = 0) :
    Smoother.next_block_exact sm s len = (List.replicate len s.target, s) := by
  have husize : i32ToUsize s.steps_left = 0 := by
    rw [h]
    rfl
  simp only [Smoother.next_block_exact, husize]
  rw [Nat.min_zero, if_neg (by omega)]

/-- C3: for every smoother state of sequential use (a non-negative, in-range
countdown, with the target round-tripping through the float representation)
and every block length, `next_block_exact` writes exactly the values that the
successive `next()` calls would return and ends in exactly the state those
calls would reach; moreover when `len ≥ steps_left > 0` the element at index
`steps_left - 1` is exactly the target value. -/
theorem next_block_exact_eq_iterated {T : Type} (sm : Smoothable T) (s : Smoother T) (len : ℕ)
    (h0 : 0 ≤ s.steps_left) (h31 : s.steps_left < 2 ^ 31)
    (hrt : sm.from_s (sm.to_s s.target) = s.target) :
    Smoother.next_block_exact sm s len =
      (Smoother.nextValues sm len s, Smoother.nextIter sm len s) ∧
    (0 < s.steps_left → s.steps_left ≤ (len : ℤ) →
      (Smoother.next_block_exact sm s len).1.get? (s.steps_left.toNat - 1) = some s.target) := by
  rcases eq_or_lt_of_le h0 with hz | hpos
  · -- exhausted smoother
    rw [next_block_exact_eval_done sm s len hz.symm,
      nextValues_done sm s (le_of_eq hz.symm) len, nextIter_done sm s (le_of_eq hz.symm) len]
    exact ⟨rfl, fun hc _ => absurd hc (by omega)⟩
  · rcases le_or_lt s.steps_left (len : ℤ) with hle | hgt
    · -- the block covers the countdown: fill, snap, then idle
      obtain ⟨r, hr⟩ : ∃ r, len = s.steps_left.toNat - 1 + 1 + r :=
        ⟨len - s.steps_left.toNat, by omega⟩
      subst hr
      have heval := next_block_exact_eval_snap sm s _ hpos h31 hle
      rw [show s.steps_left.toNat - 1 + 1 + r - s.steps_left.toNat = r by omega] at heval
      obtain ⟨hIter, hVals⟩ := nextIter_smoothing sm (s.steps_left.toNat - 1) s (by omega)
      have hs1 : (Smoother.nextIter sm (s.steps_left.toNat - 1) s).steps_left = 1 := by
        rw [hIter]
        show s.steps_left - ((s.steps_left.toNat - 1 : ℕ) : ℤ) = 1
        omega
      have hlast := next_of_last sm (Smoother.nextIter sm (s.steps_left.toNat - 1) s) hs1
      have htarget1 : (Smoother.nextIter sm (s.steps_left.toNat - 1) s).target = s.target := by
        rw [hIter]
      have hsnapIter :
          Smoother.nextIter sm 1 (Smoother.nextIter sm (s.steps_left.toNat - 1) s) =
            { s with current := sm.to_s s.target, steps_left := 0 } := by
        show (Smoother.next sm (Smoother.nextIter sm (s.steps_left.toNat - 1) s)).2 = _
        rw [hlast, htarget1, hIter]
      have hsnapVals :
          Smoother.nextValues sm 1 (Smoother.nextIter sm (s.steps_left.toNat - 1) s) =
            [s.target] := by
        show [(Smoother.next sm (Smoother.nextIter sm (s.steps_left.toNat - 1) s)).1] = _
        rw [hlast, htarget1, hrt]
      constructor
      · have hfst :
            Smoother.nextValues sm (s.steps_left.toNat - 1 + 1 + r) s =
              (smoothFill sm s.style (sm.to_s s.target) s.step_size (s.steps_left.toNat - 1)
                  s.current).1 ++ s.target :: List.replicate r s.target := by
          rw [nextValues_add, nextValues_add, nextIter_add, hsnapVals, hVals, hsnapIter,
            nextValues_done sm _ le_rfl r, List.append_assoc]
          rfl
        have hsnd :
            Smoother.nextIter sm (s.steps_left.toNat - 1 + 1 + r) s =
              { s with current := sm.to_s s.target, steps_left := 0 } := by
          rw [nextIter_add, nextIter_add, hsnapIter, nextIter_done sm _ le_rfl r]
        rw [heval, hfst, hsnd]
      · intro _ _
        rw [heval]
        have hlenfill := smoothFill_length sm s.style (sm.to_s s.target) s.step_size
          (s.steps_left.toNat - 1) s.current
        have hg := get_append_cons
          (smoothFill sm s.style (sm.to_s s.target) s.step_size (s.steps_left.toNat - 1)
            s.current).1 s.target (List.replicate r s.target)
        rw [hlenfill] at hg
        exact hg
    · -- the block is shorter than the countdown
      rcases Nat.eq_zero_or_pos len with hl0 | hlpos
      · subst hl0
        constructor
        · rw [show Smoother.nextValues sm 0 s = [] from rfl,
            show Smoother.nextIter sm 0 s = s from rfl]
          have husize : i32ToUsize s.steps_left = s.steps_left.toNat :=
            i32ToUsize_of_nonneg h0 h31
          simp only [Smoother.next_block_exact, husize]
          rw [Nat.zero_min, if_neg (by omega)]
          rfl
        · intro _ hc
          omega
      · have heval := next_block_exact_eval_mid sm s len hlpos h31 hgt
        obtain ⟨hIter, hVals⟩ := nextIter_smoothing sm len s hgt
        refine ⟨?_, fun _ hc => absurd hc (by omega)⟩
        rw [heval, hVals, hIter]

/-- Witness for C3 at a concrete two-step linear smoother and a block of 3. -/
theorem next_block_exact_eq_iterated_witness :
    Smoother.next_block_exact smoothableF32
        (⟨SmoothingStyle.Linear 100, 2, 1, 0, 5⟩ : Smoother ℝ) 3 =
      (Smoother.nextValues smoothableF32 3 ⟨SmoothingStyle.Linear 100, 2, 1, 0, 5⟩,
        Smoother.nextIter smoothableF32 3 ⟨SmoothingStyle.Linear 100, 2, 1, 0, 5⟩) ∧
    (0 < (2 : ℤ) → (2 : ℤ) ≤ ((3 : ℕ) : ℤ) →
      (Smoother.next_block_exact smoothableF32
          (⟨SmoothingStyle.Linear 100, 2, 1, 0, 5⟩ : Smoother ℝ) 3).1.get?
        ((2 : ℤ).toNat - 1) = some (5 : ℝ)) :=
  next_block_exact_eq_iterated smoothableF32 ⟨SmoothingStyle.Linear 100, 2, 1, 0, 5⟩ 3
    (by norm_num) (by norm_num) rfl

/-- Evaluation of the `reset`-then-`set_target` construction sequence used by
the convergence tests, when the computed step count is a positive valid
`i32`. -/
theorem set_target_after_reset_new {T : Type} (sm : Smoothable T) (style : SmoothingStyle)
    (sample_rate : ℝ) (start target : T) (h1 : 1 ≤ style.num_steps sample_rate)
    (hfit : style.num_steps sample_rate < 2 ^ 31) :
    Smoother.set_target sm sample_rate target
        (Smoother.reset sm start (Smoother.new sm style)) =
      { style := style,
        steps_left := (style.num_steps sample_rate : ℤ),
        step_size := style.step_size (sm.to_s start) (sm.to_s target)
          (style.num_steps sample_rate),
        current := sm.to_s start,
        target := target } := by
  simp only [Smoother.set_target, Smoother.reset, Smoother.new]
  rw [toI32_natCast hfit, if_pos (by exact_mod_cast h1)]

/-- Evaluation of `num_steps` for a `Linear` duration whose product with the
sample rate is a whole number of samples. -/
theorem num_steps_linear_eval (time sample_rate : ℝ) (N : ℕ) (hN : N < 2 ^ 32)
    (h : sample_rate * time * 0.001 = (N : ℝ)) :
    (SmoothingStyle.Linear time).num_steps sample_rate = N := by
  show realToU32 (rustRound (sample_rate * time * 0.001)) = N
  rw [h]
  unfold rustRound
  rw [if_pos (by exact_mod_cast Nat.zero_le N)]
  rw [show ⌊((N : ℕ) : ℝ) + 1 / 2⌋ = (N : ℤ) from
    Int.floor_eq_iff.mpr ⟨by push_cast; linarith, by push_cast; linarith⟩]
  unfold realToU32 truncToZero
  rw [if_pos (by exact_mod_cast Nat.zero_le N), Int.floor_intCast]
  omega

/-- The call that exhausts a countdown of `m` steps returns the target's
round-tripped value. -/
theorem last_next_value {T : Type} (sm : Smoothable T) (s : Smoother T) (m : ℕ)
    (h : s.steps_left = (m : ℤ)) (h1 : 1 ≤ m) :
    (Smoother.next sm (Smoother.nextIter sm (m - 1) s)).1 = sm.from_s (sm.to_s s.target) := by
  obtain ⟨hIter, _⟩ := nextIter_smoothing sm (m - 1) s (by rw [h]; omega)
  have hs1 : (Smoother.nextIter sm (m - 1) s).steps_left = 1 := by
    rw [hIter]
    show s.steps_left - ((m - 1 : ℕ) : ℤ) = 1
    rw [h]
    omega
  rw [next_of_last sm _ hs1]
  have htr : (Smoother.nextIter sm (m - 1) s).target = s.target := by rw [hIter]
  rw [htr]

/-- After `n - 1` of the `n` scheduled per-sample steps, the interpolated
value is still strictly away from the target, for every style whose step count
at the given rate is `n ≥ 2`, under the `Logarithmic` caller contract. -/
theorem iterate_ne_target (style : SmoothingStyle) :
    ∀ (sample_rate start target : ℝ) (n : ℕ),
      n = style.num_steps sample_rate → 2 ≤ n → start ≠ target →
      logarithmicContract style start target →
      (fun c => style.next c target (style.step_size start target n))^[n - 1] start ≠
        target := by
  induction style with
  | OversamplingAware times inner ih =>
      intro sample_rate start target n hn h2 hne hcontract
      exact ih (sample_rate * times) start target n hn h2 hne hcontract
  | None =>
      intro sample_rate start target n hn h2 _ _
      have : n = 1 := hn
      omega
  | Linear time =>
      intro _ start target n _ h2 hne _
      rw [linear_iterate]
      simp only [SmoothingStyle.step_size]
      intro heq
      apply hne
      have hn0 : (n : ℝ) ≠ 0 := Nat.cast_ne_zero.mpr (by omega)
      rw [Nat.cast_sub (by omega : 1 ≤ n), Nat.cast_one] at heq
      field_simp at heq
      linear_combination heq
  | Logarithmic time =>
      intro _ start target n _ h2 hne hcontract
      obtain ⟨hs0, hrpos⟩ := hcontract
      rw [logarithmic_iterate]
      simp only [SmoothingStyle.step_size]
      intro heq
      have hss : ((target / start) ^ (((n : ℕ) : ℝ))⁻¹) ^ (n - 1 : ℕ) =
          (target / start) ^ ((((n : ℕ) : ℝ))⁻¹ * ((n - 1 : ℕ) : ℝ)) := by
        rw [← Real.rpow_natCast ((target / start) ^ (((n : ℕ) : ℝ))⁻¹) (n - 1),
          ← Real.rpow_mul (le_of_lt hrpos)]
      rw [hss] at heq
      have heq2 : (target / start) ^ ((((n : ℕ) : ℝ))⁻¹ * ((n - 1 : ℕ) : ℝ)) =
          target / start := by
        have h' : start * ((target / start) ^ ((((n : ℕ) : ℝ))⁻¹ * ((n - 1 : ℕ) : ℝ))) =
            start * (target / start) := by
          rw [heq]
          field_simp
        exact mul_left_cancel₀ hs0 h'
      have hrne1 : target / start ≠ 1 := by
        intro hone
        rw [div_eq_one_iff_eq hs0] at hone
        exact hne hone.symm
      have hlogr : Real.log (target / start) ≠ 0 := fun h0 =>
        hrne1 (by rw [← Real.exp_log hrpos, h0, Real.exp_zero])
      have hlog := congrArg Real.log heq2
      rw [Real.log_rpow hrpos] at hlog
      nth_rewrite 2 [show Real.log (target / start) = 1 * Real.log (target / start) from
        (one_mul _).symm] at hlog
      have hcoef := mul_right_cancel₀ hlogr hlog
      rw [Nat.cast_sub (by omega : 1 ≤ n), Nat.cast_one] at hcoef
      have hn0 : (n : ℝ) ≠ 0 := Nat.cast_ne_zero.mpr (by omega)
      rw [inv_mul_eq_div, div_eq_one_iff_eq hn0] at hcoef
      linarith
  | Exponential time =>
      intro _ start target n _ h2 hne _
      rw [exponential_iterate]
      simp only [SmoothingStyle.step_size]
      intro heq
      apply hne
      have hc : (0 : ℝ) < (0.0001 : ℝ) ^ (((n : ℕ) : ℝ))⁻¹ :=
        Real.rpow_pos_of_pos (by norm_num) _
      have hz : (start - target) * ((0.0001 : ℝ) ^ (((n : ℕ) : ℝ))⁻¹) ^ (n - 1 : ℕ) = 0 := by
        linear_combination heq
      rcases mul_eq_zero.mp hz with h | h
      · exact sub_eq_zero.mp h
      · exact absurd h (pow_ne_zero _ (ne_of_gt hc))

/-- C4 (amended): for every style and a float-valued smoother, after
`reset(start)` and `set_target(sample_rate, target)` with `start ≠ target`,
`n = num_steps(style, sample_rate)`, `1 ≤ n < 2^31` (so the step count is a
valid positive `i32`) and the `Logarithmic` caller contract: the `n`-th
`next()` call returns exactly the target, forcing `current = target` and
`steps_left = 0`, and when `n ≥ 2` the `(n-1)`-th call returns a value
strictly different from the target. -/
theorem convergence_exact (style : SmoothingStyle) (sample_rate start target : ℝ) (n : ℕ)
    (s : Smoother ℝ)
    (hs : s = Smoother.set_target smoothableF32 sample_rate target
      (Smoother.reset smoothableF32 start (Smoother.new smoothableF32 style)))
    (hn : n = style.num_steps sample_rate) (h1 : 1 ≤ n) (h31 : n < 2 ^ 31)
    (hne : start ≠ target) (hlog : logarithmicContract style start target) :
    (Smoother.next smoothableF32 (Smoother.nextIter smoothableF32 (n - 1) s)).1 = target ∧
    (Smoother.nextIter smoothableF32 n s).current = target ∧
    (Smoother.nextIter smoothableF32 n s).steps_left = 0 ∧
    (2 ≤ n → (Smoother.next smoothableF32 (Smoother.nextIter smoothableF32 (n - 2) s)).1 ≠
      target) := by
  rw [set_target_after_reset_new smoothableF32 style sample_rate start target
    (hn ▸ h1) (hn ▸ h31)] at hs
  have hs2 : s =
      { style := style, steps_left := (style.num_steps sample_rate : ℤ),
        step_size := style.step_size start target (style.num_steps sample_rate),
        current := start, target := target } := hs
  clear hs
  subst hs2
  set st : Smoother ℝ :=
    { style := style, steps_left := (style.num_steps sample_rate : ℤ),
      step_size := style.step_size start target (style.num_steps sample_rate),
      current := start, target := target } with hstdef
  have hsl : st.steps_left = ((n : ℕ) : ℤ) := by rw [hstdef, ← hn]
  have hfinal : (Smoother.next smoothableF32 (Smoother.nextIter smoothableF32 (n - 1) st)).1 =
      target := by
    have := last_next_value smoothableF32 st n hsl h1
    exact this
  refine ⟨hfinal, ?_, ?_, ?_⟩
  · -- current after n steps is the target
    obtain ⟨hIter, _⟩ := nextIter_smoothing smoothableF32 (n - 1) st
      (by rw [hsl]; omega)
    have hs1 : (Smoother.nextIter smoothableF32 (n - 1) st).steps_left = 1 := by
      rw [hIter]
      show st.steps_left - ((n - 1 : ℕ) : ℤ) = 1
      rw [hsl]
      omega
    rw [show n = (n - 1) + 1 by omega, nextIter_add]
    show (Smoother.next smoothableF32 (Smoother.nextIter smoothableF32 (n - 1) st)).2.current = _
    rw [next_of_last smoothableF32 _ hs1, hIter]
    rfl
  · obtain ⟨hIter, _⟩ := nextIter_smoothing smoothableF32 (n - 1) st
      (by rw [hsl]; omega)
    have hs1 : (Smoother.nextIter smoothableF32 (n - 1) st).steps_left = 1 := by
      rw [hIter]
      show st.steps_left - ((n - 1 : ℕ) : ℤ) = 1
      rw [hsl]
      omega
    rw [show n = (n - 1) + 1 by omega, nextIter_add]
    show (Smoother.next smoothableF32 (Smoother.nextIter smoothableF32 (n - 1) st)).2.steps_left = _
    rw [next_of_last smoothableF32 _ hs1]
  · intro h2
    obtain ⟨hIter, _⟩ := nextIter_smoothing smoothableF32 (n - 2) st
      (by rw [hsl]; omega)
    have hs2 : 1 < (Smoother.nextIter smoothableF32 (n - 2) st).steps_left := by
      rw [hIter]
      show 1 < st.steps_left - ((n - 2 : ℕ) : ℤ)
      rw [hsl]
      push_cast
      omega
    rw [next_of_smoothing smoothableF32 _ hs2, hIter]
    show style.next ((smoothFill smoothableF32 style target
        (style.step_size start target (style.num_steps sample_rate)) (n - 2) start).2)
      target (style.step_size start target (style.num_steps sample_rate)) ≠ target
    rw [smoothFill_snd_eq_iterate, ← hn]
    have hstep : style.next
        ((fun x => style.next x target (style.step_size start target n))^[n - 2] start)
        target (style.step_size start target n) =
        (fun x => style.next x target (style.step_size start target n))^[n - 2 + 1] start :=
      (Function.iterate_succ_apply'
        (fun x => style.next x target (style.step_size start target n)) (n - 2) start).symm
    rw [hstep, show n - 2 + 1 = n - 1 by omega]
    exact iterate_ne_target style sample_rate start target n hn h2 hne hlog

/-- Evaluation of `realToI32` against enclosing integer bounds. -/
theorem realToI32_eval (x : ℝ) (k : ℤ) (hk1 : -(2 ^ 31) ≤ k) (hk2 : k ≤ 2 ^ 31 - 1)
    (h0 : 0 ≤ x) (h1 : (k : ℝ) ≤ x) (h2 : x < k + 1) : realToI32 x = k := by
  unfold realToI32 truncToZero
  rw [if_pos h0, Int.floor_eq_iff.mpr ⟨h1, h2⟩]
  omega

/-- Counterexample to C4 as stated.  Two independent failures: (a) for the
integer smoother `Smoother<i32, f32>` with `Linear(200 ms)` at rate 100
(`n = 20`), going from 30 to 20, the 19th = `(n-1)`-th call already returns the
target 20 (the internal value 20.5 truncates to 20), refuting strict
difference; (b) for `Linear(2^31 ms)` at rate 1000, `num_steps = 2^31`
overflows the `i32` store in `set_target` to a negative count, so every call —
including the `(n-1)`-th — returns the target immediately. -/
theorem convergence_claim_counterexample :
    ((SmoothingStyle.Linear 200).num_steps 100 = 20 ∧ (30 : ℤ) ≠ 20 ∧
      (Smoother.next smoothableI32 (Smoother.nextIter smoothableI32 (20 - 2)
        (Smoother.set_target smoothableI32 100 20 (Smoother.reset smoothableI32 30
          (Smoother.new smoothableI32 (SmoothingStyle.Linear 200)))))).1 = 20) ∧
    ((SmoothingStyle.Linear (2 ^ 31)).num_steps 1000 = 2 ^ 31 ∧ (10 : ℝ) ≠ 20 ∧
      (Smoother.next smoothableF32 (Smoother.nextIter smoothableF32 (2 ^ 31 - 2)
        (Smoother.set_target smoothableF32 1000 20 (Smoother.reset smoothableF32 10
          (Smoother.new smoothableF32 (SmoothingStyle.Linear (2 ^ 31))))))).1 = 20) := by
  have hn20 : (SmoothingStyle.Linear 200).num_steps 100 = 20 :=
    num_steps_linear_eval 200 100 20 (by norm_num) (by norm_num)
  have hnW : (SmoothingStyle.Linear (2 ^ 31)).num_steps 1000 = 2 ^ 31 :=
    num_steps_linear_eval (2 ^ 31) 1000 (2 ^ 31) (by norm_num) (by push_cast; norm_num)
  constructor
  · refine ⟨hn20, by norm_num, ?_⟩
    have hsI : Smoother.set_target smoothableI32 100 20 (Smoother.reset smoothableI32 30
        (Smoother.new smoothableI32 (SmoothingStyle.Linear 200))) =
        (⟨SmoothingStyle.Linear 200, 20, -(1 / 2), 30, 20⟩ : Smoother ℤ) := by
      rw [set_target_after_reset_new smoothableI32 (SmoothingStyle.Linear 200) 100 30 20
        (by rw [hn20]; norm_num) (by rw [hn20]; norm_num), hn20]
      simp only [smoothableI32, SmoothingStyle.step_size, Smoother.mk.injEq]
      norm_num
    rw [hsI]
    obtain ⟨hIter, _⟩ := nextIter_smoothing smoothableI32 (20 - 2)
      (⟨SmoothingStyle.Linear 200, 20, -(1 / 2), 30, 20⟩ : Smoother ℤ) (by norm_num)
    have hcur : (smoothFill smoothableI32 (SmoothingStyle.Linear 200)
        (smoothableI32.to_s (20 : ℤ)) (-(1 / 2)) (20 - 2) (30 : ℝ)).2 = 21 := by
      rw [smoothFill_snd_eq_iterate, linear_iterate]
      norm_num
    have hs2 : 1 < (Smoother.nextIter smoothableI32 (20 - 2)
        (⟨SmoothingStyle.Linear 200, 20, -(1 / 2), 30, 20⟩ : Smoother ℤ)).steps_left := by
      rw [hIter]
      norm_num
    rw [next_of_smoothing smoothableI32 _ hs2, hIter]
    show smoothableI32.from_s ((SmoothingStyle.Linear 200).next
      ((smoothFill smoothableI32 (SmoothingStyle.Linear 200) (smoothableI32.to_s (20 : ℤ))
        (-(1 / 2)) (20 - 2) (30 : ℝ)).2) (smoothableI32.to_s (20 : ℤ)) (-(1 / 2))) = 20
    rw [hcur]
    show realToI32 (21 + -(1 / 2)) = 20
    apply realToI32_eval <;> norm_num
  · refine ⟨hnW, by norm_num, ?_⟩
    have hslW : (Smoother.set_target smoothableF32 1000 20 (Smoother.reset smoothableF32 10
        (Smoother.new smoothableF32 (SmoothingStyle.Linear (2 ^ 31))))).steps_left =
        -(2 ^ 31) := by
      simp only [Smoother.set_target, Smoother.reset, Smoother.new, hnW]
      unfold toI32
      omega
    have htW : (Smoother.set_target smoothableF32 1000 20 (Smoother.reset smoothableF32 10
        (Smoother.new smoothableF32 (SmoothingStyle.Linear (2 ^ 31))))).target = 20 := by
      simp only [Smoother.set_target, Smoother.reset, Smoother.new]
    rw [nextIter_done smoothableF32 _ (by rw [hslW]; norm_num) _,
      next_of_done smoothableF32 _ (by rw [hslW]; norm_num), htW]

/-- Unfolding of `Smoother::next_step` when the remaining count is positive
but within the requested (valid `i32`) skip: snap to the target and zero the
countdown. -/
theorem next_step_of_snap {T : Type} (sm : Smoothable T) (steps : ℕ) (s : Smoother T)
    (hpos : 0 < s.steps_left) (hle : s.steps_left ≤ (steps : ℤ)) (h31 : steps < 2 ^ 31) :
    Smoother.next_step sm steps s =
      (sm.from_s (sm.to_s s.target),
        { s with current := sm.to_s s.target, steps_left := 0 }) := by
  unfold Smoother.next_step
  rw [if_pos hpos, if_pos (by rw [toI32_natCast h31]; exact hle)]

/-- Unfolding of `Smoother::next_step` when more than `steps` steps remain:
advance by the closed form and subtract exactly `steps`. -/
theorem next_step_of_advance {T : Type} (sm : Smoothable T) (steps : ℕ) (s : Smoother T)
    (hgt : (steps : ℤ) < s.steps_left) (hsl : s.steps_left < 2 ^ 31) :
    Smoother.next_step sm steps s =
      (sm.from_s (s.style.next_step s.current (sm.to_s s.target) s.step_size steps),
        { s with
          current := s.style.next_step s.current (sm.to_s s.target) s.step_size steps,
          steps_left := s.steps_left - (steps : ℤ) }) := by
  have h31 : steps < 2 ^ 31 := by exact_mod_cast lt_trans hgt hsl
  unfold Smoother.next_step
  rw [if_pos (by omega), toI32_natCast h31, if_neg (by omega),
    toI32_of_range (by omega) (by omega)]

/-- Unfolding of `Smoother::next_step` on an exhausted smoother. -/
theorem next_step_of_done {T : Type} (sm : Smoothable T) (steps : ℕ) (s : Smoother T)
    (h : s.steps_left ≤ 0) : Smoother.next_step sm steps s = (s.target, s) := by
  unfold Smoother.next_step
  rw [if_neg (by omega)]

/-- C5 (amended): for every skip count `1 ≤ steps < 2^31` in sequential use
with an in-range countdown: when `0 < steps_left ≤ steps`, `next_step` returns
the target (via its float round trip), sets `current` to it and zeroes
`steps_left`; when `steps < steps_left` it returns the closed-form
`SmoothingStyle::next_step` value and decreases `steps_left` by exactly
`steps`; consequently `next_step(k)` followed by `n - k` `next()` calls ends
on the same final value — the round-tripped target — as `n` `next()` calls,
for `1 ≤ k ≤ n = steps_left`. -/
theorem smoother_next_step_semantics {T : Type} (sm : Smoothable T) (s : Smoother T)
    (steps : ℕ) (h1 : 1 ≤ steps) (h31 : steps < 2 ^ 31) (hsl : s.steps_left < 2 ^ 31) :
    (0 < s.steps_left → s.steps_left ≤ (steps : ℤ) →
      Smoother.next_step sm steps s =
        (sm.from_s (sm.to_s s.target),
          { s with current := sm.to_s s.target, steps_left := 0 })) ∧
    ((steps : ℤ) < s.steps_left →
      Smoother.next_step sm steps s =
        (sm.from_s (s.style.next_step s.current (sm.to_s s.target) s.step_size steps),
          { s with
            current := s.style.next_step s.current (sm.to_s s.target) s.step_size steps,
            steps_left := s.steps_left - (steps : ℤ) })) ∧
    (∀ n : ℕ, s.steps_left = (n : ℤ) → steps ≤ n →
      ((steps = n → (Smoother.next_step sm steps s).1 = sm.from_s (sm.to_s s.target)) ∧
        (steps < n →
          (Smoother.next sm (Smoother.nextIter sm (n - steps - 1)
            (Smoother.next_step sm steps s).2)).1 = sm.from_s (sm.to_s s.target)) ∧
        (Smoother.next sm (Smoother.nextIter sm (n - 1) s)).1 =
          sm.from_s (sm.to_s s.target))) := by
  refine ⟨fun hpos hle => next_step_of_snap sm steps s hpos hle h31,
    fun hgt => next_step_of_advance sm steps s hgt hsl, ?_⟩
  intro n hsn hkn
  refine ⟨?_, ?_, ?_⟩
  · intro heq
    rw [next_step_of_snap sm steps s (by omega) (by omega) h31]
  · intro hlt
    rw [next_step_of_advance sm steps s (by rw [hsn]; exact_mod_cast hlt) hsl]
    have hsn2 : ({ s with
        current := s.style.next_step s.current (sm.to_s s.target) s.step_size steps,
        steps_left := s.steps_left - (steps : ℤ) } : Smoother T).steps_left =
        ((n - steps : ℕ) : ℤ) := by
      show s.steps_left - (steps : ℤ) = ((n - steps : ℕ) : ℤ)
      rw [hsn]
      push_cast
      omega
    have := last_next_value sm _ (n - steps) hsn2 (by omega)
    exact this
  · exact last_next_value sm s n hsn (by omega)

/-- Witness for C5's amended theorem at a concrete linear smoother with 10
steps left and a skip of 4. -/
theorem smoother_next_step_semantics_witness :
    (0 < (10 : ℤ) → (10 : ℤ) ≤ ((4 : ℕ) : ℤ) →
      Smoother.next_step smoothableF32 4
          (⟨SmoothingStyle.Linear 100, 10, 1, 0, 10⟩ : Smoother ℝ) =
        ((10 : ℝ), ⟨SmoothingStyle.Linear 100, 0, 1, 10, 10⟩)) ∧
    (((4 : ℕ) : ℤ) < (10 : ℤ) →
      Smoother.next_step smoothableF32 4
          (⟨SmoothingStyle.Linear 100, 10, 1, 0, 10⟩ : Smoother ℝ) =
        (((SmoothingStyle.Linear 100).next_step 0 10 1 4 : ℝ),
          ⟨SmoothingStyle.Linear 100, (10 : ℤ) - ((4 : ℕ) : ℤ), 1,
            (SmoothingStyle.Linear 100).next_step 0 10 1 4, 10⟩)) ∧
    (∀ n : ℕ, (10 : ℤ) = (n : ℤ) → 4 ≤ n →
      ((4 = n → (Smoother.next_step smoothableF32 4
          (⟨SmoothingStyle.Linear 100, 10, 1, 0, 10⟩ : Smoother ℝ)).1 = (10 : ℝ)) ∧
        (4 < n → (Smoother.next smoothableF32 (Smoother.nextIter smoothableF32 (n - 4 - 1)
            (Smoother.next_step smoothableF32 4
              (⟨SmoothingStyle.Linear 100, 10, 1, 0, 10⟩ : Smoother ℝ)).2)).1 = (10 : ℝ)) ∧
        (Smoother.next smoothableF32 (Smoother.nextIter smoothableF32 (n - 1)
          (⟨SmoothingStyle.Linear 100, 10, 1, 0, 10⟩ : Smoother ℝ))).1 = (10 : ℝ))) :=
  smoother_next_step_semantics smoothableF32 ⟨SmoothingStyle.Linear 100, 10, 1, 0, 10⟩ 4
    (by norm_num) (by norm_num) (by norm_num)

/-- Counterexample to C5 as stated: a skip of `2^31` steps wraps in the
`steps as i32` cast, so with `steps_left = 1 ≤ steps` the smoother does not
snap to the target: it returns the closed-form value `5 * 2^31` instead of the
target 5, and `steps_left` ends at `1 - 2^31`, not 0. -/
theorem next_step_wrap_counterexample :
    (Smoother.set_target smoothableF32 100 5 (Smoother.reset smoothableF32 0
        (Smoother.new smoothableF32 (SmoothingStyle.Linear 10)))).steps_left = 1 ∧
    (Smoother.next_step smoothableF32 (2 ^ 31) (Smoother.set_target smoothableF32 100 5
        (Smoother.reset smoothableF32 0
          (Smoother.new smoothableF32 (SmoothingStyle.Linear 10))))).1 = 5 * 2 ^ 31 ∧
    (Smoother.next_step smoothableF32 (2 ^ 31) (Smoother.set_target smoothableF32 100 5
        (Smoother.reset smoothableF32 0
          (Smoother.new smoothableF32 (SmoothingStyle.Linear 10))))).2.steps_left =
      1 - 2 ^ 31 ∧
    (5 * 2 ^ 31 : ℝ) ≠ 5 ∧ (1 - 2 ^ 31 : ℤ) ≠ 0 := by
  have hn1 : (SmoothingStyle.Linear 10).num_steps 100 = 1 :=
    num_steps_linear_eval 10 100 1 (by norm_num) (by norm_num)
  have hsC : Smoother.set_target smoothableF32 100 5 (Smoother.reset smoothableF32 0
      (Smoother.new smoothableF32 (SmoothingStyle.Linear 10))) =
      (⟨SmoothingStyle.Linear 10, 1, 5, 0, 5⟩ : Smoother ℝ) := by
    rw [set_target_after_reset_new smoothableF32 (SmoothingStyle.Linear 10) 100 0 5
      hn1.ge (by rw [hn1]; norm_num), hn1]
    simp only [smoothableF32, SmoothingStyle.step_size, Smoother.mk.injEq]
    norm_num
  rw [hsC]
  have hns : Smoother.next_step smoothableF32 (2 ^ 31)
      (⟨SmoothingStyle.Linear 10, 1, 5, 0, 5⟩ : Smoother ℝ) =
      ((5 * 2 ^ 31 : ℝ), ⟨SmoothingStyle.Linear 10, 1 - 2 ^ 31, 5, 5 * 2 ^ 31, 5⟩) := by
    unfold Smoother.next_step
    rw [if_pos (by norm_num),
      show toI32 (((2 ^ 31 : ℕ)) : ℤ) = -(2 ^ 31) from by unfold toI32; omega,
      if_neg (by norm_num),
      show toI32 ((1 : ℤ) - -(2 ^ 31)) = 1 - 2 ^ 31 from by unfold toI32; omega]
    simp only [smoothableF32, SmoothingStyle.next_step, Prod.mk.injEq, Smoother.mk.injEq]
    push_cast
    norm_num
  rw [hns]
  norm_num

/-- Evidence for C7: in the `Smoother<i32, f32>` scenario `Linear(30 ms)` at
rate 100 (3 steps) from 10 to 20, the interpolation is kept in floating point
(`current` is the fraction 50/3 after two steps), and the value read out by the
second `next()` is 16 — the `as`-cast truncation of 50/3 toward zero — whereas
the nearest representable `i32` to 50/3 is 17; the final (third) call still
returns exactly 20.  So rounding happens only at read-out, but it is
truncation, not round-to-nearest as the spec states. -/
theorem i32_read_truncates_not_rounds :
    (Smoother.next smoothableI32 (Smoother.next smoothableI32
      (Smoother.set_target smoothableI32 100 20 (Smoother.reset smoothableI32 10
        (Smoother.new smoothableI32 (SmoothingStyle.Linear 30))))).2).1 = 16 ∧
    ((Smoother.next smoothableI32 (Smoother.next smoothableI32
      (Smoother.set_target smoothableI32 100 20 (Smoother.reset smoothableI32 10
        (Smoother.new smoothableI32 (SmoothingStyle.Linear 30))))).2).2).current = 50 / 3 ∧
    round ((50 : ℝ) / 3) = 17 ∧
    (Smoother.next smoothableI32 ((Smoother.next smoothableI32 (Smoother.next smoothableI32
      (Smoother.set_target smoothableI32 100 20 (Smoother.reset smoothableI32 10
        (Smoother.new smoothableI32 (SmoothingStyle.Linear 30))))).2).2)).1 = 20 := by
  have hn3 : (SmoothingStyle.Linear 30).num_steps 100 = 3 :=
    num_steps_linear_eval 30 100 3 (by norm_num) (by norm_num)
  have hs7 : Smoother.set_target smoothableI32 100 20 (Smoother.reset smoothableI32 10
      (Smoother.new smoothableI32 (SmoothingStyle.Linear 30))) =
      (⟨SmoothingStyle.Linear 30, 3, 10 / 3, 10, 20⟩ : Smoother ℤ) := by
    rw [set_target_after_reset_new smoothableI32 (SmoothingStyle.Linear 30) 100 10 20
      (by rw [hn3]; norm_num) (by rw [hn3]; norm_num), hn3]
    simp only [smoothableI32, SmoothingStyle.step_size, Smoother.mk.injEq]
    norm_num
  have hstate1 : (Smoother.next smoothableI32
      (⟨SmoothingStyle.Linear 30, 3, 10 / 3, 10, 20⟩ : Smoother ℤ)).2 =
      (⟨SmoothingStyle.Linear 30, 2, 10 / 3, 40 / 3, 20⟩ : Smoother ℤ) := by
    rw [next_of_smoothing smoothableI32 _ (by norm_num)]
    simp only [smoothableI32, SmoothingStyle.next, Smoother.mk.injEq]
    norm_num
  have hcall2 : Smoother.next smoothableI32
      (⟨SmoothingStyle.Linear 30, 2, 10 / 3, 40 / 3, 20⟩ : Smoother ℤ) =
      ((16 : ℤ), (⟨SmoothingStyle.Linear 30, 1, 10 / 3, 50 / 3, 20⟩ : Smoother ℤ)) := by
    rw [next_of_smoothing smoothableI32 _ (by norm_num)]
    have hval : realToI32 ((50 : ℝ) / 3) = 16 := by
      apply realToI32_eval <;> norm_num
    simp only [smoothableI32, SmoothingStyle.next, Prod.mk.injEq, Smoother.mk.injEq]
    norm_num [hval]
  have hcall3 : (Smoother.next smoothableI32
      (⟨SmoothingStyle.Linear 30, 1, 10 / 3, 50 / 3, 20⟩ : Smoother ℤ)).1 = 20 := by
    rw [next_of_last smoothableI32 _ rfl]
    show realToI32 (((20 : ℤ) : ℝ)) = 20
    apply realToI32_eval <;> push_cast <;> norm_num
  rw [hs7, hstate1, hcall2]
  refine ⟨rfl, rfl, ?_, hcall3⟩
  rw [round_eq]
  exact Int.floor_eq_iff.mpr ⟨by push_cast; norm_num, by push_cast; norm_num⟩

/-- Evaluation of `next_block_exact` on an empty block: nothing happens. -/
theorem next_block_exact_eval_nil {T : Type} (sm : Smoothable T) (s : Smoother T) :
    Smoother.next_block_exact sm s 0 = ([], s) := by
  simp only [Smoother.next_block_exact]
  rw [Nat.zero_min, if_neg (by omega)]
  rfl

/-- Evaluation of `next_block_exact_mapped` on an exhausted smoother: the
mapper is applied to the target's float value at every index. -/
theorem next_block_exact_mapped_eval_done {T U : Type} (sm : Smoothable T) (s : Smoother T)
    (len : ℕ) (f : ℕ → ℝ → U) (h : s.steps_left = 0) :
    Smoother.next_block_exact_mapped sm s len f =
      ((List.range len).map (fun idx => f idx (sm.to_s s.target)), s) := by
  have husize : i32ToUsize s.steps_left = 0 := by
    rw [h]
    rfl
  simp only [Smoother.next_block_exact_mapped, husize]
  rw [Nat.min_zero, if_neg (by omega)]

/-- Evaluation of `next_block_exact_mapped` on an empty block. -/
theorem next_block_exact_mapped_eval_nil {T U : Type} (sm : Smoothable T) (s : Smoother T)
    (f : ℕ → ℝ → U) :
    Smoother.next_block_exact_mapped sm s 0 f = ([], s) := by
  simp only [Smoother.next_block_exact_mapped]
  rw [Nat.zero_min, if_neg (by omega)]
  rfl

/-- Evaluation of `next_block_exact_mapped` when the block covers the whole
countdown. -/
theorem next_block_exact_mapped_eval_snap {T U : Type} (sm : Smoothable T) (s : Smoother T)
    (len : ℕ) (f : ℕ → ℝ → U) (h0 : 0 < s.steps_left) (h31 : s.steps_left < 2 ^ 31)
    (hlen : s.steps_left ≤ (len : ℤ)) :
    Smoother.next_block_exact_mapped sm s len f =
      ((mappedFill s.style (sm.to_s s.target) s.step_size f 0 (s.steps_left.toNat - 1)
          s.current).1 ++
        f (s.steps_left.toNat - 1) (sm.to_s s.target) ::
          (List.range' s.steps_left.toNat (len - s.steps_left.toNat)).map
            (fun idx => f idx (sm.to_s s.target)),
        { s with current := sm.to_s s.target, steps_left := 0 }) := by
  have husize : i32ToUsize s.steps_left = s.steps_left.toNat :=
    i32ToUsize_of_nonneg (le_of_lt h0) h31
  have hnum : min len s.steps_left.toNat = s.steps_left.toNat := by
    apply min_eq_right
    omega
  simp only [Smoother.next_block_exact_mapped, husize, hnum]
  rw [if_pos (show 0 < s.steps_left.toNat by omega), if_true,
    Int.toNat_of_nonneg (le_of_lt h0), toI32_of_range (by omega) h31, sub_self,
    @toI32_of_range 0 (by norm_num) (by norm_num)]

/-- Evaluation of `next_block_exact_mapped` when the block is shorter than the
countdown. -/
theorem next_block_exact_mapped_eval_mid {T U : Type} (sm : Smoothable T) (s : Smoother T)
    (len : ℕ) (f : ℕ → ℝ → U) (hpos : 0 < len) (h31 : s.steps_left < 2 ^ 31)
    (hlen : (len : ℤ) < s.steps_left) :
    Smoother.next_block_exact_mapped sm s len f =
      ((mappedFill s.style (sm.to_s s.target) s.step_size f 0 len s.current).1,
        { s with
          current := (mappedFill s.style (sm.to_s s.target) s.step_size f 0 len s.current).2,
          steps_left := s.steps_left - len }) := by
  have h0 : 0 < s.steps_left := by omega
  have husize : i32ToUsize s.steps_left = s.steps_left.toNat :=
    i32ToUsize_of_nonneg (le_of_lt h0) h31
  have hnum : min len s.steps_left.toNat = len := by
    apply min_eq_left
    omega
  have hne : ¬ len = s.steps_left.toNat := by omega
  simp only [Smoother.next_block_exact_mapped, husize, hnum]
  rw [if_pos hpos, if_neg hne,
    @toI32_of_range ((len : ℕ) : ℤ) (by omega) (by omega),
    @toI32_of_range (s.steps_left - (len : ℤ)) (by omega) (by omega),
    Nat.sub_self]
  rw [show List.range' len 0 = [] from rfl, List.map_nil, List.append_nil]

/-- The block fill keeps the countdown a valid non-negative `i32`. -/
theorem next_block_exact_snd_valid {T : Type} (sm : Smoothable T) (s : Smoother T)
    (h : stepsLeftValid s) (len : ℕ) :
    stepsLeftValid (Smoother.next_block_exact sm s len).2 := by
  obtain ⟨hnn, hlt⟩ := h
  rcases eq_or_lt_of_le hnn with hz | hp
  · rw [next_block_exact_eval_done sm s len hz.symm]
    exact ⟨hnn, hlt⟩
  · rcases le_or_lt s.steps_left (len : ℤ) with hle | hgt
    · rw [next_block_exact_eval_snap sm s len hp hlt hle]
      exact ⟨le_rfl, by norm_num⟩
    · rcases Nat.eq_zero_or_pos len with hl0 | hlp
      · subst hl0
        rw [next_block_exact_eval_nil sm s]
        exact ⟨hnn, hlt⟩
      · rw [next_block_exact_eval_mid sm s len hlp hlt hgt]
        exact ⟨show (0 : ℤ) ≤ s.steps_left - (len : ℤ) by omega,
          show s.steps_left - (len : ℤ) < 2 ^ 31 by omega⟩

/-- The mapped block fill keeps the countdown a valid non-negative `i32`. -/
theorem next_block_exact_mapped_snd_valid {T U : Type} (sm : Smoothable T) (s : Smoother T)
    (h : stepsLeftValid s) (len : ℕ) (f : ℕ → ℝ → U) :
    stepsLeftValid (Smoother.next_block_exact_mapped sm s len f).2 := by
  obtain ⟨hnn, hlt⟩ := h
  rcases eq_or_lt_of_le hnn with hz | hp
  · rw [next_block_exact_mapped_eval_done sm s len f hz.symm]
    exact ⟨hnn, hlt⟩
  · rcases le_or_lt s.steps_left (len : ℤ) with hle | hgt
    · rw [next_block_exact_mapped_eval_snap sm s len f hp hlt hle]
      exact ⟨le_rfl, by norm_num⟩
    · rcases Nat.eq_zero_or_pos len with hl0 | hlp
      · subst hl0
        rw [next_block_exact_mapped_eval_nil sm s f]
        exact ⟨hnn, hlt⟩
      · rw [next_block_exact_mapped_eval_mid sm s len f hlp hlt hgt]
        exact ⟨show (0 : ℤ) ≤ s.steps_left - (len : ℤ) by omega,
          show s.steps_left - (len : ℤ) < 2 ^ 31 by omega⟩

/-- C8 (amended): starting from a state with a valid non-negative countdown —
as construction produces — every operation leaves `steps_left()` non-negative
(and a valid `i32`): construction, `reset`, `set_target` when the computed
step count fits in an `i32`, `next`, `next_step` for skip counts below `2^31`,
and all four block variants (the sliced ones whenever they do not panic). -/
theorem steps_left_invariant {T : Type} (sm : Smoothable T) (s : Smoother T)
    (h : stepsLeftValid s) :
    (∀ style, stepsLeftValid (Smoother.new sm style)) ∧
    (∀ value, stepsLeftValid (Smoother.reset sm value s)) ∧
    (∀ sample_rate target, s.style.num_steps sample_rate < 2 ^ 31 →
      stepsLeftValid (Smoother.set_target sm sample_rate target s)) ∧
    stepsLeftValid (Smoother.next sm s).2 ∧
    (∀ steps, steps < 2 ^ 31 → stepsLeftValid (Smoother.next_step sm steps s).2) ∧
    (∀ len, stepsLeftValid (Smoother.next_block_exact sm s len).2) ∧
    (∀ block_values block_len out s2,
      Smoother.next_block sm s block_values block_len = some (out, s2) →
        stepsLeftValid s2) ∧
    (∀ (U : Type) (len : ℕ) (f : ℕ → ℝ → U),
      stepsLeftValid (Smoother.next_block_exact_mapped sm s len f).2) ∧
    (∀ block_values block_len (f : ℕ → ℝ → T) out s2,
      Smoother.next_block_mapped sm s block_values block_len f = some (out, s2) →
        stepsLeftValid s2) := by
  obtain ⟨hnn, hlt⟩ := h
  refine ⟨?_, ?_, ?_, ?_, ?_, ?_, ?_, ?_, ?_⟩
  · intro style
    exact ⟨le_rfl, by show (0 : ℤ) < 2 ^ 31; norm_num⟩
  · intro value
    exact ⟨le_rfl, by show (0 : ℤ) < 2 ^ 31; norm_num⟩
  · intro sample_rate target hfit
    have hspr : (Smoother.set_target sm sample_rate target s).steps_left =
        ((s.style.num_steps sample_rate : ℕ) : ℤ) := by
      show toI32 _ = _
      exact toI32_natCast hfit
    exact ⟨by rw [hspr]; omega, by rw [hspr]; exact_mod_cast hfit⟩
  · by_cases h0 : 0 < s.steps_left
    · by_cases h1 : s.steps_left = 1
      · rw [next_of_last sm s h1]
        exact ⟨le_rfl, by norm_num⟩
      · rw [next_of_smoothing sm s (by omega)]
        exact ⟨show (0 : ℤ) ≤ s.steps_left - 1 by omega,
          show s.steps_left - 1 < 2 ^ 31 by omega⟩
    · rw [next_of_done sm s (by omega)]
      exact ⟨hnn, hlt⟩
  · intro steps h31s
    by_cases h0 : 0 < s.steps_left
    · by_cases hle : s.steps_left ≤ (steps : ℤ)
      · rw [next_step_of_snap sm steps s h0 hle h31s]
        exact ⟨le_rfl, by norm_num⟩
      · rw [next_step_of_advance sm steps s (by omega) hlt]
        exact ⟨show (0 : ℤ) ≤ s.steps_left - (steps : ℤ) by omega,
          show s.steps_left - (steps : ℤ) < 2 ^ 31 by omega⟩
    · rw [next_step_of_done sm steps s (by omega)]
      exact ⟨hnn, hlt⟩
  · exact next_block_exact_snd_valid sm s ⟨hnn, hlt⟩
  · intro block_values block_len out s2 hsome
    simp only [Smoother.next_block] at hsome
    by_cases hle : block_len ≤ block_values.length
    · rw [if_pos hle] at hsome
      have hp := Option.some.inj hsome
      have hs2 : (Smoother.next_block_exact sm s block_len).2 = s2 := congrArg Prod.snd hp
      rw [← hs2]
      exact next_block_exact_snd_valid sm s ⟨hnn, hlt⟩ block_len
    · rw [if_neg hle] at hsome
      exact Option.noConfusion hsome
  · intro U len f
    exact next_block_exact_mapped_snd_valid sm s ⟨hnn, hlt⟩ len f
  · intro block_values block_len f out s2 hsome
    simp only [Smoother.next_block_mapped] at hsome
    by_cases hle : block_len ≤ block_values.length
    · rw [if_pos hle] at hsome
      have hp := Option.some.inj hsome
      have hs2 : (Smoother.next_block_exact_mapped sm s block_len f).2 = s2 :=
        congrArg Prod.snd hp
      rw [← hs2]
      exact next_block_exact_mapped_snd_valid sm s ⟨hnn, hlt⟩ block_len f
    · rw [if_neg hle] at hsome
      exact Option.noConfusion hsome

/-- Witness for C8's amended theorem at a concrete three-step smoother. -/
theorem steps_left_invariant_witness :
    (∀ style, stepsLeftValid (Smoother.new smoothableF32 style)) ∧
    (∀ value, stepsLeftValid (Smoother.reset smoothableF32 value
      (⟨SmoothingStyle.Linear 100, 3, 1, 0, 7⟩ : Smoother ℝ))) ∧
    (∀ sample_rate target,
      (⟨SmoothingStyle.Linear 100, 3, 1, 0, 7⟩ : Smoother ℝ).style.num_steps sample_rate <
        2 ^ 31 →
      stepsLeftValid (Smoother.set_target smoothableF32 sample_rate target
        ⟨SmoothingStyle.Linear 100, 3, 1, 0, 7⟩)) ∧
    stepsLeftValid (Smoother.next smoothableF32
      (⟨SmoothingStyle.Linear 100, 3, 1, 0, 7⟩ : Smoother ℝ)).2 ∧
    (∀ steps, steps < 2 ^ 31 → stepsLeftValid (Smoother.next_step smoothableF32 steps
      (⟨SmoothingStyle.Linear 100, 3, 1, 0, 7⟩ : Smoother ℝ)).2) ∧
    (∀ len, stepsLeftValid (Smoother.next_block_exact smoothableF32
      (⟨SmoothingStyle.Linear 100, 3, 1, 0, 7⟩ : Smoother ℝ) len).2) ∧
    (∀ block_values block_len out s2,
      Smoother.next_block smoothableF32 (⟨SmoothingStyle.Linear 100, 3, 1, 0, 7⟩ : Smoother ℝ)
          block_values block_len = some (out, s2) →
        stepsLeftValid s2) ∧
    (∀ (U : Type) (len : ℕ) (f : ℕ → ℝ → U),
      stepsLeftValid (Smoother.next_block_exact_mapped smoothableF32
        (⟨SmoothingStyle.Linear 100, 3, 1, 0, 7⟩ : Smoother ℝ) len f).2) ∧
    (∀ block_values block_len (f : ℕ → ℝ → ℝ) out s2,
      Smoother.next_block_mapped smoothableF32
          (⟨SmoothingStyle.Linear 100, 3, 1, 0, 7⟩ : Smoother ℝ) block_values block_len f =
        some (out, s2) →
      stepsLeftValid s2) :=
  steps_left_invariant smoothableF32 ⟨SmoothingStyle.Linear 100, 3, 1, 0, 7⟩
    ⟨by norm_num, by norm_num⟩

/-- Counterexample to C8 as stated: from the reachable one-step state, the
sequential call `next_step(2^31)` completes with `steps_left()` negative —
the wrapping `steps as i32` cast defeats the clamp. -/
theorem steps_left_invariant_counterexample :
    0 ≤ (Smoother.set_target smoothableF32 50 3 (Smoother.reset smoothableF32 0
      (Smoother.new smoothableF32 (SmoothingStyle.Linear 20)))).steps_left ∧
    (Smoother.next_step smoothableF32 (2 ^ 31) (Smoother.set_target smoothableF32 50 3
      (Smoother.reset smoothableF32 0
        (Smoother.new smoothableF32 (SmoothingStyle.Linear 20))))).2.steps_left < 0 := by
  have hn1 : (SmoothingStyle.Linear 20).num_steps 50 = 1 :=
    num_steps_linear_eval 20 50 1 (by norm_num) (by norm_num)
  have hsD : Smoother.set_target smoothableF32 50 3 (Smoother.reset smoothableF32 0
      (Smoother.new smoothableF32 (SmoothingStyle.Linear 20))) =
      (⟨SmoothingStyle.Linear 20, 1, 3, 0, 3⟩ : Smoother ℝ) := by
    rw [set_target_after_reset_new smoothableF32 (SmoothingStyle.Linear 20) 50 0 3
      hn1.ge (by rw [hn1]; norm_num), hn1]
    simp only [smoothableF32, SmoothingStyle.step_size, Smoother.mk.injEq]
    norm_num
  rw [hsD]
  constructor
  · norm_num
  · have hns : (Smoother.next_step smoothableF32 (2 ^ 31)
        (⟨SmoothingStyle.Linear 20, 1, 3, 0, 3⟩ : Smoother ℝ)).2.steps_left = 1 - 2 ^ 31 := by
      unfold Smoother.next_step
      rw [if_pos (by norm_num),
        show toI32 (((2 ^ 31 : ℕ)) : ℤ) = -(2 ^ 31) from by unfold toI32; omega,
        if_neg (by norm_num),
        show toI32 ((1 : ℤ) - -(2 ^ 31)) = 1 - 2 ^ 31 from by unfold toI32; omega]
    rw [hns]
    norm_num

/-- Length of the mapped fill: the mapper is applied once per produced
element. -/
theorem mappedFill_length (style : SmoothingStyle) (t ss : ℝ) {U : Type} (f : ℕ → ℝ → U) :
    ∀ (n idx : ℕ) (c : ℝ), (mappedFill style t ss f idx n c).1.length = n := by
  intro n
  induction n with
  | zero => intro idx c; rfl
  | succ n ih =>
      intro idx c
      show (f idx _ :: (mappedFill style t ss f (idx + 1) n _).1).length = n + 1
      rw [List.length_cons, ih]

/-- The mapped fill for an arbitrary mapper is the element-wise image of the
fill for the pair collector, and the final `current` does not depend on the
mapper. -/
theorem mappedFill_map (style : SmoothingStyle) (t ss : ℝ) {U : Type} (f : ℕ → ℝ → U) :
    ∀ (n idx : ℕ) (c : ℝ),
      (mappedFill style t ss f idx n c).1 =
        (mappedFill style t ss (fun i x => (i, x)) idx n c).1.map (fun p => f p.1 p.2) ∧
      (mappedFill style t ss f idx n c).2 =
        (mappedFill style t ss (fun i x => (i, x)) idx n c).2 := by
  intro n
  induction n with
  | zero => intro idx c; exact ⟨rfl, rfl⟩
  | succ n ih =>
      intro idx c
      obtain ⟨ih1, ih2⟩ := ih (idx + 1) (style.next c t ss)
      constructor
      · show f idx (style.next c t ss) ::
            (mappedFill style t ss f (idx + 1) n (style.next c t ss)).1 = _
        rw [ih1]
        rfl
      · show (mappedFill style t ss f (idx + 1) n (style.next c t ss)).2 = _
        rw [ih2]
        rfl

/-- The indices recorded by the pair collector are consecutive from the
starting index. -/
theorem mappedFill_fst_trace (style : SmoothingStyle) (t ss : ℝ) :
    ∀ (n idx : ℕ) (c : ℝ),
      (mappedFill style t ss (fun i x => (i, x)) idx n c).1.map Prod.fst =
        List.range' idx n := by
  intro n
  induction n with
  | zero => intro idx c; rfl
  | succ n ih =>
      intro idx c
      show idx :: (mappedFill style t ss (fun i x => (i, x)) (idx + 1) n _).1.map Prod.fst = _
      rw [ih]
      rfl

/-- Reading past a prefix of an appended list. -/
theorem get_append_right {α : Type} (l1 l2 : List α) :
    ∀ i, l1.length ≤ i → (l1 ++ l2).get? i = l2.get? (i - l1.length) := by
  induction l1 with
  | nil => intro i _; rfl
  | cons a l1 ih =>
      intro i hi
      cases i with
      | zero => exact absurd hi (by simp)
      | succ i =>
          show (l1 ++ l2).get? i = _
          rw [ih i (by simpa using hi), List.length_cons]
          congr 1
          omega

/-- Reading an element of the constant-pair tail. -/
theorem get_map_pair_range' (t : ℝ) :
    ∀ (n a j : ℕ), j < n →
      ((List.range' a n).map (fun idx => (idx, t))).get? j = some (a + j, t) := by
  intro n
  induction n with
  | zero => intro a j h; omega
  | succ n ih =>
      intro a j h
      cases j with
      | zero => show some (a, t) = some (a + 0, t); rw [Nat.add_zero]
      | succ j =>
          show ((List.range' (a + 1) n).map (fun idx => (idx, t))).get? j = _
          rw [ih (a + 1) j (by omega)]
          rw [show a + 1 + j = a + (j + 1) by omega]

/-- Concatenating consecutive index ranges. -/
theorem range'_append_consecutive :
    ∀ (m a n : ℕ), List.range' a m ++ List.range' (a + m) n = List.range' a (m + n) := by
  intro m
  induction m with
  | zero => intro a n; rw [Nat.add_zero, Nat.zero_add]; rfl
  | succ m ih =>
      intro a n
      show a :: (List.range' (a + 1) m ++ List.range' (a + (m + 1)) n) = _
      rw [show a + (m + 1) = a + 1 + m by omega, ih (a + 1) n,
        show m + 1 + n = m + n + 1 by omega]
      rfl

/-- Mapping the first projection over a constant-pair list is the identity on
the underlying indices. -/
theorem map_fst_map_pair (t : ℝ) :
    ∀ l : List ℕ, (l.map (fun idx => (idx, t))).map Prod.fst = l := by
  intro l
  induction l with
  | nil => rfl
  | cons a l ih =>
      show a :: (l.map (fun idx => (idx, t))).map Prod.fst = a :: l
      rw [ih]

/-- C9: `next_block_exact_mapped` invokes the mapper exactly `len` times, once
per index `0..len-1` in increasing order (the trace of a collecting mapper has
length `len` and first components `0, 1, …, len-1`); every call at or past the
exhaustion point receives the target's float value; and the output for an
arbitrary mapper `f` is exactly `f` applied once to each recorded call. -/
theorem next_block_exact_mapped_spec {T : Type} (sm : Smoothable T) (s : Smoother T)
    (len : ℕ) (h0 : 0 ≤ s.steps_left) (h31 : s.steps_left < 2 ^ 31) :
    (Smoother.next_block_exact_mapped sm s len (fun i x => (i, x))).1.length = len ∧
    (Smoother.next_block_exact_mapped sm s len (fun i x => (i, x))).1.map Prod.fst =
      List.range len ∧
    (∀ i, s.steps_left.toNat ≤ i → i < len →
      (Smoother.next_block_exact_mapped sm s len (fun i x => (i, x))).1.get? i =
        some (i, sm.to_s s.target)) ∧
    (∀ (U : Type) (f : ℕ → ℝ → U),
      (Smoother.next_block_exact_mapped sm s len f).1 =
        (Smoother.next_block_exact_mapped sm s len (fun i x => (i, x))).1.map
          (fun p => f p.1 p.2)) := by
  rcases eq_or_lt_of_le h0 with hz | hp
  · -- exhausted smoother: every slot is mapped from the target value
    have hev : ∀ (U : Type) (f : ℕ → ℝ → U),
        Smoother.next_block_exact_mapped sm s len f =
          ((List.range len).map (fun idx => f idx (sm.to_s s.target)), s) :=
      fun U f => next_block_exact_mapped_eval_done sm s len f hz.symm
    rw [hev]
    refine ⟨by rw [List.length_map, List.length_range], map_fst_map_pair _ _, ?_, ?_⟩
    · intro i _ hilen
      rw [List.get?_map, List.get?_range hilen]
      rfl
    · intro U f
      rw [hev, List.map_map]
      rfl
  · rcases le_or_lt s.steps_left (len : ℤ) with hle | hgt
    · -- the block covers the countdown
      have hev : ∀ (U : Type) (f : ℕ → ℝ → U),
          Smoother.next_block_exact_mapped sm s len f =
            ((mappedFill s.style (sm.to_s s.target) s.step_size f 0 (s.steps_left.toNat - 1)
                s.current).1 ++
              f (s.steps_left.toNat - 1) (sm.to_s s.target) ::
                (List.range' s.steps_left.toNat (len - s.steps_left.toNat)).map
                  (fun idx => f idx (sm.to_s s.target)),
              { s with current := sm.to_s s.target, steps_left := 0 }) :=
        fun U f => next_block_exact_mapped_eval_snap sm s len f hp h31 hle
      have hm1 : s.steps_left.toNat - 1 + 1 = s.steps_left.toNat := by omega
      have hlenfill := mappedFill_length s.style (sm.to_s s.target) s.step_size
        (fun i x => (i, x)) (s.steps_left.toNat - 1) 0 s.current
      rw [hev]
      refine ⟨?_, ?_, ?_, ?_⟩
      · rw [List.length_append, List.length_cons, List.length_map, List.length_range',
          hlenfill]
        omega
      · rw [List.map_append, mappedFill_fst_trace]
        show List.range' 0 (s.steps_left.toNat - 1) ++
            (s.steps_left.toNat - 1) ::
              ((List.range' s.steps_left.toNat (len - s.steps_left.toNat)).map
                (fun idx => (idx, sm.to_s s.target))).map Prod.fst =
          List.range len
        rw [map_fst_map_pair,
          show (s.steps_left.toNat - 1) ::
              List.range' s.steps_left.toNat (len - s.steps_left.toNat) =
            List.range' (s.steps_left.toNat - 1) (1 + (len - s.steps_left.toNat)) from by
              rw [show 1 + (len - s.steps_left.toNat) = (len - s.steps_left.toNat) + 1 from by
                omega]
              show _ = (s.steps_left.toNat - 1) :: List.range' (s.steps_left.toNat - 1 + 1) _
              rw [hm1]]
        have hrr := range'_append_consecutive (s.steps_left.toNat - 1) 0
          (1 + (len - s.steps_left.toNat))
        rw [Nat.zero_add] at hrr
        rw [hrr, List.range_eq_range']
        congr 1
        omega
      · intro i hi hilen
        rw [get_append_right _ _ i (by rw [hlenfill]; omega), hlenfill]
        have hi1 : i - (s.steps_left.toNat - 1) = (i - s.steps_left.toNat) + 1 := by omega
        rw [hi1]
        show ((List.range' s.steps_left.toNat (len - s.steps_left.toNat)).map
            (fun idx => (idx, sm.to_s s.target))).get? (i - s.steps_left.toNat) = _
        rw [get_map_pair_range' _ _ _ _ (by omega),
          show s.steps_left.toNat + (i - s.steps_left.toNat) = i from by omega]
      · intro U f
        rw [hev]
        obtain ⟨hf1, _⟩ := mappedFill_map s.style (sm.to_s s.target) s.step_size f
          (s.steps_left.toNat - 1) 0 s.current
        rw [hf1, List.map_append, List.map_cons, List.map_map]
        rfl
    · -- the block is shorter than the countdown
      rcases Nat.eq_zero_or_pos len with hl0 | hlp
      · subst hl0
        have hev : ∀ (U : Type) (f : ℕ → ℝ → U),
            Smoother.next_block_exact_mapped sm s 0 f = ([], s) :=
          fun U f => next_block_exact_mapped_eval_nil sm s f
        rw [hev]
        exact ⟨rfl, rfl, fun i _ h => absurd h (by omega), fun U f => by rw [hev]; rfl⟩
      · have hev : ∀ (U : Type) (f : ℕ → ℝ → U),
            Smoother.next_block_exact_mapped sm s len f =
              ((mappedFill s.style (sm.to_s s.target) s.step_size f 0 len s.current).1,
                { s with
                  current :=
                    (mappedFill s.style (sm.to_s s.target) s.step_size f 0 len s.current).2,
                  steps_left := s.steps_left - len }) :=
          fun U f => next_block_exact_mapped_eval_mid sm s len f hlp h31 hgt
        rw [hev]
        refine ⟨mappedFill_length _ _ _ _ _ _ _, ?_, ?_, ?_⟩
        · rw [mappedFill_fst_trace, List.range_eq_range']
        · intro i hi hilen
          omega
        · intro U f
          rw [hev]
          exact (mappedFill_map s.style (sm.to_s s.target) s.step_size f len 0 s.current).1

/-- Witness for C9 at a concrete one-step smoother and a block of 2. -/
theorem next_block_exact_mapped_spec_witness :
    (Smoother.next_block_exact_mapped smoothableF32
        (⟨SmoothingStyle.Linear 100, 1, 2, 0, 5⟩ : Smoother ℝ) 2 (fun i x => (i, x))).1.length =
      2 ∧
    (Smoother.next_block_exact_mapped smoothableF32
        (⟨SmoothingStyle.Linear 100, 1, 2, 0, 5⟩ : Smoother ℝ) 2 (fun i x => (i, x))).1.map
      Prod.fst = List.range 2 ∧
    (∀ i, (1 : ℤ).toNat ≤ i → i < 2 →
      (Smoother.next_block_exact_mapped smoothableF32
          (⟨SmoothingStyle.Linear 100, 1, 2, 0, 5⟩ : Smoother ℝ) 2 (fun i x => (i, x))).1.get?
        i = some (i, (5 : ℝ))) ∧
    (∀ (U : Type) (f : ℕ → ℝ → U),
      (Smoother.next_block_exact_mapped smoothableF32
          (⟨SmoothingStyle.Linear 100, 1, 2, 0, 5⟩ : Smoother ℝ) 2 f).1 =
        (Smoother.next_block_exact_mapped smoothableF32
            (⟨SmoothingStyle.Linear 100, 1, 2, 0, 5⟩ : Smoother ℝ) 2 (fun i x => (i, x))).1.map
          (fun p => f p.1 p.2)) :=
  next_block_exact_mapped_spec smoothableF32 ⟨SmoothingStyle.Linear 100, 1, 2, 0, 5⟩ 2
    (by norm_num) (by norm_num)

/-- Every element of a `next_block_exact` output is written, so its length is
the block's. -/
theorem next_block_exact_fst_length {T : Type} (sm : Smoothable T) (s : Smoother T)
    (len : ℕ) : (Smoother.next_block_exact sm s len).1.length = len := by
  simp only [Smoother.next_block_exact]
  by_cases h1 : 0 < min len (i32ToUsize s.steps_left)
  · rw [if_pos h1]
    have hminle : min len (i32ToUsize s.steps_left) ≤ len := Nat.min_le_left _ _
    by_cases h2 : min len (i32ToUsize s.steps_left) = i32ToUsize s.steps_left
    · rw [if_pos h2]
      show ((smoothFill _ _ _ _ _ _).1 ++ _ :: List.replicate _ _).length = len
      rw [List.length_append, smoothFill_length, List.length_cons, List.length_replicate]
      omega
    · rw [if_neg h2]
      show ((smoothFill _ _ _ _ _ _).1 ++ List.replicate _ _).length = len
      rw [List.length_append, smoothFill_length, List.length_replicate]
      omega
  · rw [if_neg h1]
    exact List.length_replicate _ _

/-- C10: `next_block(block_values, block_len)` panics — modelled by `none` —
exactly when `block_len` exceeds the buffer length; otherwise it behaves as
`next_block_exact` on the first `block_len` elements and leaves the tail of
the buffer unchanged. -/
theorem next_block_semantics {T : Type} (sm : Smoothable T) (s : Smoother T)
    (block_values : List T) (block_len : ℕ) :
    (Smoother.next_block sm s block_values block_len = Option.none ↔
      block_values.length < block_len) ∧
    (block_len ≤ block_values.length →
      Smoother.next_block sm s block_values block_len =
        some ((Smoother.next_block_exact sm s block_len).1 ++
            block_values.drop block_len,
          (Smoother.next_block_exact sm s block_len).2)) ∧
    (∀ out s2, Smoother.next_block sm s block_values block_len = some (out, s2) →
      out.take block_len = (Smoother.next_block_exact sm s block_len).1 ∧
      out.drop block_len = block_values.drop block_len ∧
      s2 = (Smoother.next_block_exact sm s block_len).2) := by
  by_cases hle : block_len ≤ block_values.length
  · have hsome : Smoother.next_block sm s block_values block_len =
        some ((Smoother.next_block_exact sm s block_len).1 ++ block_values.drop block_len,
          (Smoother.next_block_exact sm s block_len).2) := by
      simp only [Smoother.next_block]
      rw [if_pos hle]
    refine ⟨?_, fun _ => hsome, ?_⟩
    · rw [hsome]
      constructor
      · intro hcontr
        exact Option.noConfusion hcontr
      · intro hcontr
        omega
    · intro out s2 hout
      rw [hsome] at hout
      have hp := Option.some.inj hout
      have hout1 : (Smoother.next_block_exact sm s block_len).1 ++
          block_values.drop block_len = out := congrArg Prod.fst hp
      have hout2 : (Smoother.next_block_exact sm s block_len).2 = s2 :=
        congrArg Prod.snd hp
      have hlen := next_block_exact_fst_length sm s block_len
      refine ⟨?_, ?_, hout2.symm⟩
      · have htake := List.take_left (Smoother.next_block_exact sm s block_len).1
          (block_values.drop block_len)
        rw [hlen] at htake
        rw [← hout1]
        exact htake
      · have hdrop := List.drop_left (Smoother.next_block_exact sm s block_len).1
          (block_values.drop block_len)
        rw [hlen] at hdrop
        rw [← hout1]
        exact hdrop
  · have hnone : Smoother.next_block sm s block_values block_len = Option.none := by
      simp only [Smoother.next_block]
      rw [if_neg hle]
    refine ⟨?_, fun hc => absurd hc hle, ?_⟩
    · rw [hnone]
      exact ⟨fun _ => by omega, fun _ => rfl⟩
    · intro out s2 hout
      rw [hnone] at hout
      exact Option.noConfusion hout

/-- Witness for C10 at a concrete buffer. -/
theorem next_block_semantics_witness :
    (Smoother.next_block smoothableF32 (⟨SmoothingStyle.Linear 100, 1, 2, 0, 5⟩ : Smoother ℝ)
        [9, 9, 9] 2 = Option.none ↔ ([(9 : ℝ), 9, 9] : List ℝ).length < 2) ∧
    (2 ≤ ([(9 : ℝ), 9, 9] : List ℝ).length →
      Smoother.next_block smoothableF32 (⟨SmoothingStyle.Linear 100, 1, 2, 0, 5⟩ : Smoother ℝ)
          [9, 9, 9] 2 =
        some ((Smoother.next_block_exact smoothableF32
              (⟨SmoothingStyle.Linear 100, 1, 2, 0, 5⟩ : Smoother ℝ) 2).1 ++
            ([(9 : ℝ), 9, 9] : List ℝ).drop 2,
          (Smoother.next_block_exact smoothableF32
            (⟨SmoothingStyle.Linear 100, 1, 2, 0, 5⟩ : Smoother ℝ) 2).2)) ∧
    (∀ out s2, Smoother.next_block smoothableF32
        (⟨SmoothingStyle.Linear 100, 1, 2, 0, 5⟩ : Smoother ℝ) [9, 9, 9] 2 = some (out, s2) →
      out.take 2 = (Smoother.next_block_exact smoothableF32
        (⟨SmoothingStyle.Linear 100, 1, 2, 0, 5⟩ : Smoother ℝ) 2).1 ∧
      out.drop 2 = ([(9 : ℝ), 9, 9] : List ℝ).drop 2 ∧
      s2 = (Smoother.next_block_exact smoothableF32
        (⟨SmoothingStyle.Linear 100, 1, 2, 0, 5⟩ : Smoother ℝ) 2).2) :=
  next_block_semantics smoothableF32 ⟨SmoothingStyle.Linear 100, 1, 2, 0, 5⟩ [9, 9, 9] 2

/-- Witness for C4's amended theorem: the spec's concrete scenario,
`Linear(100 ms)` at sample rate 100, from 10 to 20 in 10 steps. -/
theorem convergence_exact_witness :
    (Smoother.next smoothableF32 (Smoother.nextIter smoothableF32 (10 - 1)
        (Smoother.set_target smoothableF32 100 20 (Smoother.reset smoothableF32 10
          (Smoother.new smoothableF32 (SmoothingStyle.Linear 100)))))).1 = 20 ∧
    (Smoother.nextIter smoothableF32 10
        (Smoother.set_target smoothableF32 100 20 (Smoother.reset smoothableF32 10
          (Smoother.new smoothableF32 (SmoothingStyle.Linear 100))))).current = 20 ∧
    (Smoother.nextIter smoothableF32 10
        (Smoother.set_target smoothableF32 100 20 (Smoother.reset smoothableF32 10
          (Smoother.new smoothableF32 (SmoothingStyle.Linear 100))))).steps_left = 0 ∧
    (2 ≤ 10 → (Smoother.next smoothableF32 (Smoother.nextIter smoothableF32 (10 - 2)
        (Smoother.set_target smoothableF32 100 20 (Smoother.reset smoothableF32 10
          (Smoother.new smoothableF32 (SmoothingStyle.Linear 100)))))).1 ≠ 20) :=
  convergence_exact (SmoothingStyle.Linear 100) 100 10 20 10 _ rfl
    (num_steps_linear_eval 100 100 10 (by norm_num) (by norm_num)).symm
    (by norm_num) (by norm_num) (by norm_num) trivial

end
